import Mathlib

/-!
Verification of the 2048 decision-engine core (`game_board.py`, `ai.py`).

The board is embedded as a function grid `Mat m n := Fin m → Fin n → ℕ`:
numpy arrays of floats hold only exact small powers of two here, so cell
values are idealised as natural numbers, and the numpy axis operations
(`[:,::-1]`, `.T`, `[::-1,:]`) become index permutations.  Row loops from
the source (`merge`, `justify_left`, the zero/non-zero adjacency scan) are
translated into structurally identical Lean recursions.  Floating-point
quantities of the evaluator (`eval_board` uses `np.sqrt`) are idealised as
real numbers, with `-inf` sentinels of the search code modelled by `EReal`.
-/

/-- A grid with `m` rows and `n` columns of natural-number cell values.
Embeds `GameBoard.grid` (an `m = n = grid_len` numpy array in the source,
kept rectangular here since every grid routine is shape generic). -/
abbrev Mat (m n : ℕ) : Type := Fin m → Fin n → ℕ

/-- Embeds `justify_left(a, out)` restricted to one row: the source copies
the non-zero entries of the row in order into the zero row `out`, leaving
zeros after them. -/
def justifyRow (r : List ℕ) : List ℕ :=
  r.filter (fun x => x ≠ 0) ++
    List.replicate (r.length - (r.filter (fun x => x ≠ 0)).length) 0

/-- Helper for `mergeRow`: `a` is the value currently at position `j` when
the in-place loop of `merge(a)` compares positions `j` and `j+1`.  When
`a[j] == a[j+1] != 0` the source doubles `a[j]` and zeroes `a[j+1]`, so the
scan continues with current value `0`; otherwise it continues with `b`. -/
def mergeAux (a : ℕ) : List ℕ → List ℕ
  | [] => [a]
  | b :: rest =>
    if a = b ∧ a ≠ 0 then (2 * a) :: mergeAux 0 rest
    else a :: mergeAux b rest

/-- Embeds the in-place loop of `merge(a)` restricted to one row, scanning
`j` left to right over the row. -/
def mergeRow : List ℕ → List ℕ
  | [] => []
  | a :: rest => mergeAux a rest

/-- The per-row pipeline of `GameBoard.move`: justify, merge, justify. -/
def moveRowFull (r : List ℕ) : List ℕ :=
  justifyRow (mergeRow (justifyRow r))

/-- Row `i` of the grid as a list (the row a numba row loop walks). -/
def rowList (g : Mat m n) (i : Fin m) : List ℕ :=
  List.ofFn (g i)

/-- The three left-direction steps of `GameBoard.move` applied to every row
of the grid (`justify_left`, `merge`, `justify_left`). -/
def leftPipe (g : Mat m n) : Mat m n :=
  fun i j => (moveRowFull (rowList g i)).getD j 0

/-- numpy `self.grid[:,::-1].T` (reverse columns, then transpose): the
reorientation applied before the left pipeline for direction Up. -/
def upT1 (g : Mat m n) : Mat n m :=
  fun i j => g j i.rev

/-- numpy `self.grid.T[:,::-1]`: the reorientation undoing `upT1`. -/
def upT2 (h : Mat n m) : Mat m n :=
  fun i j => h j.rev i

/-- numpy `self.grid.T[:,::-1]` applied first: the reorientation before the
left pipeline for direction Down. -/
def downT1 (g : Mat m n) : Mat n m :=
  fun i j => g j.rev i

/-- numpy `self.grid[:,::-1].T`: the reorientation undoing `downT1`. -/
def downT2 (h : Mat n m) : Mat m n :=
  fun i j => h j i.rev

/-- numpy `self.grid[:,::-1]` followed by `self.grid[::-1,:]` (reverse both
axes), used before and after the left pipeline for direction Right. -/
def rrT (g : Mat m n) : Mat m n :=
  fun i j => g i.rev j.rev

/-- Embeds the grid transformation of `GameBoard.move(dir)`:
direction codes 0 Up, 1 Down, 2 Left, 3 Right, any other code leaves the
grid unchanged (no `if` branch of the source fires). -/
def applyMove (d : ℕ) (g : Mat m n) : Mat m n :=
  match d with
  | 0 => upT2 (leftPipe (upT1 g))
  | 1 => downT2 (leftPipe (downT1 g))
  | 2 => leftPipe g
  | 3 => rrT (leftPipe (rrT g))
  | _ => g

/-- numpy `(a == b).all()` on two same-shape grids: elementwise equality. -/
def gridEqAllB (a b : Mat m n) : Bool :=
  decide (∀ i j, a i j = b i j)

/-- Embeds `GameBoard.move(dir, get_avail_call)`: the first component is the
grid after the move (the in-place mutation), the second is the returned
value — `not (clone.grid == self.grid).all()` when `get_avail_call` is true,
and Python `None` (here `none`) otherwise. -/
def moveCall (g : Mat m n) (d : ℕ) (getAvailCall : Bool) :
    Mat m n × Option Bool :=
  (applyMove d g,
   if getAvailCall then some (!(gridEqAllB g (applyMove d g))) else none)

/-- Embeds `GameBoard.insert_tile(pos, value)`: an unconditional write of
`value` at `pos`, with no occupancy check in the source. -/
def insertTile (g : Mat m n) (p : Fin m × Fin n) (v : ℕ) : Mat m n :=
  fun i j => if i = p.1 ∧ j = p.2 then v else g i j

/-- All cell positions in row-major order (the nested `for x / for y` loop
of `GameBoard.get_available_cells`). -/
def cellList (m n : ℕ) : List (Fin m × Fin n) :=
  (List.finRange m).flatMap (fun i => (List.finRange n).map (fun j => (i, j)))

/-- Embeds `GameBoard.get_available_cells()`: the zero cells in row-major
order. -/
def availableCells (g : Mat m n) : List (Fin m × Fin n) :=
  (cellList m n).filter (fun p => g p.1 p.2 = 0)

/-- Embeds `GameBoard.calculate_move_score(original_grid)` evaluated on the
current grid `post`: sum of every cell strictly exceeding its prior value
and currently non-zero. -/
def calculateMoveScore (post prior : Mat m n) : ℕ :=
  ∑ i, ∑ j, if prior i j < post i j ∧ post i j ≠ 0 then post i j else 0

/-- Modelled from the spec: the value produced by one merge step on a
justified row — every time `merge` combines an equal non-zero adjacent pair,
the doubled left value `2 * a` is counted.  This mirrors `mergeRow` exactly
and is the spec's notion of "total value of tiles produced by merges". -/
def mergeScoreAux (a : ℕ) : List ℕ → ℕ
  | [] => 0
  | b :: rest =>
    if a = b ∧ a ≠ 0 then 2 * a + mergeScoreAux 0 rest
    else mergeScoreAux b rest

/-- Modelled from the spec: total merged value of one row, walking the row
exactly as `mergeAux` does. -/
def mergeRowScore : List ℕ → ℕ
  | [] => 0
  | a :: rest => mergeScoreAux a rest

/-- Modelled from the spec: the total value of tiles produced by merges
during `move(d)`, computed over the same reoriented rows the move pipeline
merges (the merge step runs on the justified reoriented grid). -/
def moveMergeScore (d : ℕ) (g : Mat m n) : ℕ :=
  match d with
  | 0 => ∑ i, mergeRowScore (justifyRow (rowList (upT1 g) i))
  | 1 => ∑ i, mergeRowScore (justifyRow (rowList (downT1 g) i))
  | 2 => ∑ i, mergeRowScore (justifyRow (rowList g i))
  | 3 => ∑ i, mergeRowScore (justifyRow (rowList (rrT g) i))
  | _ => 0

/-- State of the `get_available_from_zeros` scan: the four direction flags
`[uc, dc, lc, rc]` and the per-column vectors `v_saw_0`, `v_saw_1`. -/
structure ZFlags (n : ℕ) where
  uc : Bool
  dc : Bool
  lc : Bool
  rc : Bool
  vSaw0 : Fin n → Bool
  vSaw1 : Fin n → Bool

/-- Embeds the inner `for j` loop of `get_available_from_zeros` on row `i`:
`saw0`/`saw1` are the per-row flags, reset for each row.  A zero cell sets
`saw_0`/`v_saw_0[j]` and turns on `rc` (resp. `dc`) when a positive cell was
seen earlier in the row (resp. the column); a positive cell symmetrically
turns on `lc`/`uc`. -/
def scanRow (g : Mat m n) (i : Fin m) :
    List (Fin n) → ZFlags n → Bool → Bool → ZFlags n
  | [], s, _, _ => s
  | j :: js, s, saw0, saw1 =>
    if g i j = 0 then
      scanRow g i js
        { s with
          rc := s.rc || saw1
          dc := s.dc || s.vSaw1 j
          vSaw0 := fun c => if c = j then true else s.vSaw0 c }
        true saw1
    else
      scanRow g i js
        { s with
          lc := s.lc || saw0
          uc := s.uc || s.vSaw0 j
          vSaw1 := fun c => if c = j then true else s.vSaw1 c }
        saw0 true

/-- The outer `for i` loop of `get_available_from_zeros`. -/
def scanRows (g : Mat m n) : List (Fin m) → ZFlags n → ZFlags n
  | [], s => s
  | i :: is, s => scanRows g is (scanRow g i (List.finRange n) s false false)

/-- The all-false initial scan state (`uc, dc, lc, rc = False`, zero
`v_saw_0`/`v_saw_1` vectors). -/
def initFlags (n : ℕ) : ZFlags n :=
  ⟨false, false, false, false, fun _ => false, fun _ => false⟩

/-- Embeds `get_available_from_zeros(a)`: the list `[uc, dc, lc, rc]`. -/
def getAvailableFromZeros (g : Mat m n) : List Bool :=
  let s := scanRows g (List.finRange m) (initFlags n)
  [s.uc, s.dc, s.lc, s.rc]

/-- Embeds `GameBoard.get_available_moves()` with the default direction list
`range(4)`: a direction passes when its fast-scan flag is set, and otherwise
when the simulated move on a clone (`board_clone.move(x, True)`) reports a
change. -/
def getAvailableMoves (g : Mat m n) : List ℕ :=
  (List.range 4).filter (fun x =>
    if (getAvailableFromZeros g).getD x false then true
    else ((moveCall g x true).2.getD false))

/-- The sum of all cell values of a grid. -/
def gridSum (g : Mat m n) : ℕ :=
  ∑ i, ∑ j, g i j

/-- Soundness reading of the four scan flags: each flag, when set, is
witnessed by the adjacency pattern that makes the corresponding move legal —
`uc` a zero strictly above a non-zero in some column, `dc` a non-zero
strictly above a zero, `lc` a zero strictly left of a non-zero in some row,
`rc` a non-zero strictly left of a zero. -/
def FlagsSound (g : Mat m n) (s : ZFlags n) : Prop :=
  (s.uc = true →
    ∃ (j : Fin n) (i1 i2 : Fin m), i1 < i2 ∧ g i1 j = 0 ∧ g i2 j ≠ 0) ∧
  (s.dc = true →
    ∃ (j : Fin n) (i1 i2 : Fin m), i1 < i2 ∧ g i1 j ≠ 0 ∧ g i2 j = 0) ∧
  (s.lc = true →
    ∃ (i : Fin m) (j1 j2 : Fin n), j1 < j2 ∧ g i j1 = 0 ∧ g i j2 ≠ 0) ∧
  (s.rc = true →
    ∃ (i : Fin m) (j1 j2 : Fin n), j1 < j2 ∧ g i j1 ≠ 0 ∧ g i j2 = 0)

/-- The utility 4-tuple of `eval_board`:
`(total_utility, empty_term, smoothness_term_cubed, big_tile_term)`.  The
first component is `EReal` because the search code seeds comparisons with
`float(-inf)` and propagates it through sums; the floats of the source are
idealised as reals. -/
abbrev Util : Type := EReal × ℝ × ℝ × ℝ

/-- `big_t = np.sum(np.power(grid, 2))` of `eval_board`. -/
noncomputable def bigT (g : Mat m n) : ℝ :=
  ∑ i, ∑ j, ((g i j : ℝ)) ^ 2

/-- The horizontal half of the `smoothness` loop of `eval_board`: the sum of
`|sqrt(g[i,j]) - sqrt(g[i,j+1])|` over horizontally adjacent pairs (`j` runs
over `range(n-1)`, written with a guard here). -/
noncomputable def hPairs (g : Mat m n) : ℝ :=
  ∑ i : Fin m, ∑ j : Fin n, if h : (j : ℕ) + 1 < n then
    |Real.sqrt (g i j) - Real.sqrt (g i ⟨(j : ℕ) + 1, h⟩)| else 0

/-- The vertical half of the `smoothness` loop of `eval_board`. -/
noncomputable def vPairs (g : Mat m n) : ℝ :=
  ∑ j : Fin n, ∑ i : Fin m, if h : (i : ℕ) + 1 < m then
    |Real.sqrt (g i j) - Real.sqrt (g ⟨(i : ℕ) + 1, h⟩ j)| else 0

/-- The `smoothness` accumulator of `eval_board`: starting from 0 it
subtracts every horizontally and then every vertically adjacent
square-root difference. -/
noncomputable def smoothness (g : Mat m n) : ℝ :=
  0 - hPairs g - vPairs g

/-- Embeds `AI.eval_board(board, n_empty)`: with `empty_w = 100000` and the
smoothness term cubed (`smoothness_w = 3`), it returns
`(big_t + empty_u + smooth_u, empty_u, smooth_u, big_t)`. -/
noncomputable def evalBoard (g : Mat m n) (nEmpty : ℕ) : Util :=
  (((bigT g + (nEmpty : ℝ) * 100000 + smoothness g ^ 3 : ℝ) : EReal),
    (nEmpty : ℝ) * 100000, smoothness g ^ 3, bigT g)

/-- The adaptive depth limit of `AI.chance`:
`max(3, int(5 / (grid_len / 4)))`.  The float quotient equals `20 / gl`
exactly for the reachable board sizes, so it is idealised as natural
division. -/
def chanceMaxDepth (gl : ℕ) : ℕ :=
  max 3 (20 / gl)

/-- Componentwise `utility[i] * w`, the weighting step of the
`utility_sum[i] += utility[i] * t[2]` loop of `AI.chance`. -/
noncomputable def wsmul (w : ℝ) (u : Util) : Util :=
  (u.1 * (w : EReal), u.2.1 * w, u.2.2.1 * w, u.2.2.2 * w)

/-- `max_utility`s initial value `(float(-inf), 0, 0, 0)` in `AI.maximize`. -/
noncomputable def botUtil : Util :=
  (⊥, 0, 0, 0)

mutual

/-- Embeds `AI.maximize(board, depth, max_depth=3)` (every call site uses
`max_depth = 3`): at the depth limit it returns `(None, eval_board(...))`,
otherwise it folds over the legal moves keeping the utility whose first
component compares `>=` against the current best. -/
noncomputable def maximize (g : Mat nn nn) (d : ℕ) : Option ℕ × Util :=
  if 3 ≤ d then (none, evalBoard g (availableCells g).length)
  else maxLoop g d (getAvailableMoves g) (none, botUtil)
termination_by (4 * (3 - d) + 1, 0)

/-- The `for mb in moves_boards` loop of `AI.maximize`: each legal move is
simulated on a clone, `chance` is consulted at `depth + 1`, and the running
best is replaced whenever `utility[0] >= max_utility[0]`. -/
noncomputable def maxLoop (g : Mat nn nn) (d : ℕ) :
    List ℕ → Option ℕ × Util → Option ℕ × Util
  | [], acc => acc
  | mv :: ms, acc =>
    let u := chance (applyMove mv g) (d + 1)
    maxLoop g d ms (if acc.2.1 ≤ u.1 then (some mv, u) else acc)
termination_by l _ => (4 * (2 - d) + 3, l.length)

/-- Embeds `AI.chance(board, depth)`: the cost-control cutoff returns the
static evaluation when `n_empty >= grid_len * 2` and
`depth >= max(3, int(5/(grid_len/4)))`; a full board recurses straight into
`maximize(depth + 1)`; otherwise every `(empty cell, tile value)` pair with
weights `0.9/n_empty` and `0.1/n_empty` is enumerated. -/
noncomputable def chance (g : Mat nn nn) (d : ℕ) : Util :=
  if (availableCells g).length ≥ nn * 2 ∧ chanceMaxDepth nn ≤ d then
    evalBoard g (availableCells g).length
  else if (availableCells g).length = 0 then (maximize g (d + 1)).2
  else
    chanceLoop g d
      ((availableCells g).flatMap (fun c =>
        [(c, 2, (0.9 : ℝ) * (1 / ((availableCells g).length : ℝ))),
         (c, 4, (0.1 : ℝ) * (1 / ((availableCells g).length : ℝ)))]))
      (0, 0, 0, 0)
termination_by (4 * (2 - d) + 2, 2 * (availableCells g).length + 1)
decreasing_by
  · apply Prod.Lex.left
    omega
  · apply Prod.Lex.right
    have hb : ∀ (p : (Fin nn × Fin nn) → List ((Fin nn × Fin nn) × ℕ × ℝ)),
        (∀ c, (p c).length = 2) → ∀ cs : List (Fin nn × Fin nn),
        (cs.flatMap p).length = 2 * cs.length := by
      intro p hp cs
      induction cs with
      | nil => rfl
      | cons c cs ih =>
        simp only [List.flatMap_cons, List.length_append, List.length_cons,
          hp, ih]
        omega
    rw [hb (fun c =>
        [(c, (2:ℕ), (0.9 : ℝ) * (1 / ((availableCells g).length : ℝ))),
         (c, 4, (0.1 : ℝ) * (1 / ((availableCells g).length : ℝ)))])
      (fun c => rfl) (availableCells g)]
    omega

/-- The `for t in possible_tiles` loop of `AI.chance`: the tile is inserted
on a clone, `maximize(depth + 1)` is consulted and its utility tuple is
accumulated componentwise with weight `t[2]`. -/
noncomputable def chanceLoop (g : Mat nn nn) (d : ℕ) :
    List ((Fin nn × Fin nn) × ℕ × ℝ) → Util → Util
  | [], acc => acc
  | t :: ts, acc =>
    chanceLoop g d ts
      (acc + wsmul t.2.2 ((maximize (insertTile g t.1 t.2.1) (d + 1)).2))
termination_by l _ => (4 * (2 - d) + 2, l.length)

end

/-- Embeds the EXPECTIMAX branch of `AI.get_move(board)`: it returns the
`best_move` of `maximize(board, max_depth=3)`.  The `rng` stream parameter
records the ambient random source of the process; the expectimax code path
never consults it, which is exactly what the embedding shows by ignoring
it. -/
noncomputable def getMoveExpectimax (rng : ℕ → ℕ) (g : Mat nn nn) :
    Option ℕ :=
  (maximize g 0).1

/-- The scalar `eval_board(...)[0]` used by `AI.minimax_move`s terminal
case. -/
noncomputable def evalScalar (g : Mat nn nn) : EReal :=
  (evalBoard g (availableCells g).length).1

/-- The opponent-tile simulation of `AI.minimax_move`s maximizing layers:
`empty_cells[0]` (the first available cell) receives a 4 when any cell is
empty; a full board is left unchanged. -/
noncomputable def afterOpp (h : Mat nn nn) : Mat nn nn :=
  match availableCells h with
  | [] => h
  | c :: _ => insertTile h c 4

/-- The `for move in moves` fold of the maximizing layer of the inner
`minimax`, accumulating `max_eval = max(max_eval, ...)` from `float(-inf)`;
`f` is the recursive evaluation at `depth - 1` and each simulated move is
followed by the opponent 4-tile at the first empty cell. -/
noncomputable def mmMaxLoop (f : Mat nn nn → EReal) (g : Mat nn nn) :
    List ℕ → EReal → EReal
  | [], acc => acc
  | mv :: ms, acc =>
    mmMaxLoop f g ms (max acc (f (afterOpp (applyMove mv g))))

/-- The `for cell in empty_cells` fold of the minimizing layer, accumulating
`min_eval = min(min_eval, ...)` from `float(inf)`; a 4 is inserted at every
empty cell. -/
noncomputable def mmMinLoop (f : Mat nn nn → EReal) (g : Mat nn nn) :
    List (Fin nn × Fin nn) → EReal → EReal
  | [], acc => acc
  | c :: cs, acc => mmMinLoop f g cs (min acc (f (insertTile g c 4)))

/-- Embeds the inner `minimax(board, depth, is_maximizing)` of
`AI.minimax_move`, by structural recursion on the depth: the source tests
`depth == 0 or len(moves) == 0` and recurses at `depth - 1`, so the
`depth = dn + 1` case recurses at `dn`. -/
noncomputable def mm : ℕ → Mat nn nn → Bool → EReal
  | 0, g, _ => evalScalar g
  | dn + 1, g, isMax =>
    if getAvailableMoves g = [] then evalScalar g
    else if isMax then
      mmMaxLoop (fun h => mm dn h false) g (getAvailableMoves g) ⊥
    else mmMinLoop (fun h => mm dn h true) g (availableCells g) ⊤

/-- The top-level `for move in moves` dispatch loop of `AI.minimax_move`
(`max_depth = 4`): each legal move is simulated, the opponent 4-tile is
placed at the first empty cell, the minimizing layer is consulted at depth
`max_depth - 1 = 3`, and the best move is replaced only on a strict
`score > best_score`. -/
noncomputable def mmTopLoop (g : Mat nn nn) :
    List ℕ → Option ℕ × EReal → Option ℕ × EReal
  | [], acc => acc
  | mv :: ms, acc =>
    let score := mm 3 (afterOpp (applyMove mv g)) false
    mmTopLoop g ms (if acc.2 < score then (some mv, score) else acc)

/-- Embeds `AI.minimax_move(board, max_depth=4)`: the top-level dispatch
starting from `best_move = None`, `best_score = float(-inf)`. -/
noncomputable def minimaxMove (g : Mat nn nn) : Option ℕ :=
  (mmTopLoop g (getAvailableMoves g) (none, ⊥)).1

/-- Modelled from the spec: "the first available empty cell in enumeration
order" — the first zero cell in row-major order. -/
def firstEmptyRowMajor (h : Mat m n) : Option (Fin m × Fin n) :=
  (cellList m n).find? (fun p => h p.1 p.2 = 0)

/-- Modelled from the spec: the opponent move of the Minimax maximizing
layer — "inserting a 4-tile (not 2) at the first available empty cell in
enumeration order" when any cell is empty. -/
noncomputable def oppSpec (h : Mat nn nn) : Mat nn nn :=
  match firstEmptyRowMajor h with
  | none => h
  | some c => insertTile h c 4

/-- Modelled from the spec: the scalar evaluation the Minimax top level
assigns to a legal move — simulate the move, let the opponent place a 4 at
the first empty row-major cell, then run the minimizing recursion at depth
`max_depth - 1 = 3`. -/
noncomputable def scoreOf (g : Mat nn nn) (mv : ℕ) : EReal :=
  mm 3 (oppSpec (applyMove mv g)) false

/-- Horizontal mirror of a square grid (reverse every row). -/
def mirH (g : Mat nn nn) : Mat nn nn :=
  fun i j => g i j.rev

/-- Transpose of a square grid. -/
def transp (g : Mat nn nn) : Mat nn nn :=
  fun i j => g j i

/-- Direction relabelling induced by the horizontal mirror:
Left and Right swap, Up and Down are fixed. -/
def swapLR (d : ℕ) : ℕ :=
  if d = 2 then 3 else if d = 3 then 2 else d

/-- Direction relabelling induced by the transpose:
Up swaps with Left, Down swaps with Right. -/
def swapUL (d : ℕ) : ℕ :=
  if d = 0 then 2 else if d = 2 then 0
  else if d = 1 then 3 else if d = 3 then 1 else d

/-- The fully symmetric 2x2 board with every tile 4: all four moves are
legal and the four children are reflections of each other. -/
def g44 : Mat 2 2 :=
  fun _ _ => 4

/-- The 2x2 board `[[4,2],[0,0]]`: its only legal move is Down. -/
def gOne : Mat 2 2 :=
  fun i j => if i = 0 then (if j = 0 then 4 else 2) else 0

/-- The 1x4 row `[2,2,4,4]` of the spec's merge test. -/
def gRow2244 : Mat 1 4 :=
  fun _ j => [2, 2, 4, 4].getD j 0

/-- The 1x4 row `[4,8,0,0]`, the expected result of moving Left. -/
def gRow4800 : Mat 1 4 :=
  fun _ j => [4, 8, 0, 0].getD j 0

/-- The 1x4 row `[2,2,0,0]` of the spec's first score example. -/
def gRow2200 : Mat 1 4 :=
  fun _ j => [2, 2, 0, 0].getD j 0

/-- The 1x4 row `[4,4,4,4]` of the spec's second score example. -/
def gRow4444 : Mat 1 4 :=
  fun _ j => [4, 4, 4, 4].getD j 0

/-- A 2x2 board whose only non-zero tile sits at position `(0,1)`: moving
Left slides it into the empty cell `(0,0)` without any merge. -/
def gSlide : Mat 2 2 :=
  fun i j => if i = 0 ∧ j = 1 then 2 else 0

/-- A 1x1 board whose single cell is occupied by a 2 tile. -/
def gOcc : Mat 1 1 :=
  fun _ _ => 2

/-- C2: moving Left on the 1x4 row `[2,2,4,4]` yields `[4,8,0,0]` (the
doubled left tile does not cascade-merge with its new neighbour), and a
second Left move with no intervening tile insertion leaves the grid
unchanged. -/
theorem moveLeft_2244_no_cascade_and_idempotent :
    applyMove 2 gRow2244 = gRow4800 ∧ applyMove 2 gRow4800 = gRow4800 := by
  constructor <;> (funext i j; fin_cases i <;> fin_cases j <;> rfl)

/-- C6 counterexample: on a board whose cell `(0,0)` holds a 2,
`insert_tile((0,0), 4)` silently overwrites the occupied cell with 4 — no
error is surfaced (the embedded operation is total and returns the mutated
grid), refuting the claim that the cell is not silently overwritten. -/
theorem insertTile_occupied_silently_overwritten :
    gOcc 0 0 = 2 ∧ insertTile gOcc (0, 0) 4 0 0 = 4 := by
  constructor <;> rfl

/-- C6 (amended): `insert_tile(pos, value)` performs no occupancy check — it
unconditionally writes `value` at `pos`, silently overwriting the cell even
when it is occupied, and leaves every other cell unchanged; callers must
guarantee emptiness themselves. -/
theorem insertTile_unconditional_write (g : Mat m n)
    (p : Fin m × Fin n) (v : ℕ) (hocc : g p.1 p.2 ≠ 0) :
    insertTile g p v p.1 p.2 = v ∧
      ∀ i j, ¬(i = p.1 ∧ j = p.2) → insertTile g p v i j = g i j := by
  refine ⟨by simp [insertTile], fun i j hij => ?_⟩
  simp only [insertTile, if_neg hij]

/-- Witness for the amended C6 theorem at the concrete occupied board. -/
theorem insertTile_unconditional_write_witness :
    gOcc 0 0 ≠ 0 ∧
      (insertTile gOcc (0, 0) 4 0 0 = 4 ∧
        ∀ i j, ¬(i = 0 ∧ j = 0) → insertTile gOcc (0, 0) 4 i j = gOcc i j) :=
  ⟨by decide, insertTile_unconditional_write gOcc (0, 0) 4 (by decide)⟩

/-- C3 counterexample: `move(direction)` invoked the way the search code
invokes it — without the `get_avail_call` flag — returns Python `None`, not
a boolean, even on a board (here `gSlide`) where the Left move does change
the grid.  The claimed boolean is only produced by `move(d, True)`. -/
theorem moveCall_default_returns_none :
    (moveCall gSlide 2 false).2 = none ∧ (moveCall gSlide 2 false).1 ≠ gSlide := by
  constructor
  · rfl
  · decide

/-- C3 (amended): `move(direction, get_avail_call=True)` mutates the grid to
the direction's transform and returns `some` boolean that is true exactly
when the post-move grid differs from the pre-move grid; the default call
`move(direction)` performs the same mutation but returns `None`. -/
theorem moveCall_changed_iff (g : Mat m n) (d : ℕ) :
    (moveCall g d true).1 = applyMove d g ∧
      (moveCall g d true).2 = some (!(gridEqAllB g (applyMove d g))) ∧
      ((moveCall g d true).2 = some true ↔ applyMove d g ≠ g) ∧
      (moveCall g d false).2 = none := by
  refine ⟨rfl, rfl, ?_, rfl⟩
  simp only [moveCall, if_pos, Option.some_inj, Bool.not_eq_eq_eq_not,
    Bool.not_true, gridEqAllB, decide_eq_false_iff_not]
  constructor
  · intro h hc
    exact h (fun i j => by rw [hc])
  · intro h hc
    exact h (funext fun i => funext fun j => (hc i j).symm)

/-- C4 counterexample: on the 2x2 board `[[0,2],[0,0]]` the Left move is
legal (the 2 slides into the empty corner) and produces no merge at all, so
the total merged value is 0, yet `calculate_move_score` counts the slid
tile (its new cell grew from 0 to 2) and returns 2. -/
theorem calculateMoveScore_counts_slide_without_merge :
    applyMove 2 gSlide ≠ gSlide ∧
      moveMergeScore 2 gSlide = 0 ∧
      calculateMoveScore (applyMove 2 gSlide) gSlide = 2 := by
  refine ⟨by decide, by decide, by decide⟩

/-- C4 (amended): `calculate_move_score(prior_grid)` is the sum of every
cell whose current value exceeds the prior value at the same position,
excluding zero cells; on the spec's examples it coincides with the total
merged value — `[[2,2,0,0]]` moving Left gives 4 and `[[4,4,4,4]]` moving
Left gives 16 — but it does not equal the merged total for every legal
move, since a tile sliding onto a cell of smaller prior value is counted
too. -/
theorem calculateMoveScore_spec_examples :
    calculateMoveScore (applyMove 2 gRow2200) gRow2200 = 4 ∧
      moveMergeScore 2 gRow2200 = 4 ∧
      calculateMoveScore (applyMove 2 gRow4444) gRow4444 = 16 ∧
      moveMergeScore 2 gRow4444 = 16 := by
  refine ⟨by decide, by decide, by decide, by decide⟩

theorem mergeAux_sum (a : ℕ) (l : List ℕ) :
    (mergeAux a l).sum = a + l.sum := by
  induction l generalizing a with
  | nil => simp [mergeAux]
  | cons b rest ih =>
    by_cases h : a = b ∧ a ≠ 0
    · simp only [mergeAux, if_pos h, List.sum_cons, ih]
      omega
    · simp only [mergeAux, if_neg h, List.sum_cons, ih]

theorem mergeRow_sum (l : List ℕ) : (mergeRow l).sum = l.sum := by
  cases l with
  | nil => rfl
  | cons a rest => simp [mergeRow, mergeAux_sum]

theorem sum_filter_ne_zero (l : List ℕ) :
    (l.filter (fun x => x ≠ 0)).sum = l.sum := by
  induction l with
  | nil => rfl
  | cons a rest ih =>
    rw [List.filter_cons]
    by_cases h : a = 0
    · subst h
      simpa using ih
    · simpa [h] using congrArg (a + ·) ih

theorem justifyRow_sum (l : List ℕ) : (justifyRow l).sum = l.sum := by
  rw [justifyRow, List.sum_append, List.sum_replicate, sum_filter_ne_zero,
    smul_zero, Nat.add_zero]

theorem moveRowFull_sum (l : List ℕ) : (moveRowFull l).sum = l.sum := by
  simp [moveRowFull, justifyRow_sum, mergeRow_sum]

theorem mergeAux_length (a : ℕ) (l : List ℕ) :
    (mergeAux a l).length = l.length + 1 := by
  induction l generalizing a with
  | nil => rfl
  | cons b rest ih =>
    by_cases h : a = b ∧ a ≠ 0
    · simp [mergeAux, if_pos h, ih]
    · simp [mergeAux, if_neg h, ih]

theorem mergeRow_length (l : List ℕ) : (mergeRow l).length = l.length := by
  cases l with
  | nil => rfl
  | cons a rest => simp [mergeRow, mergeAux_length]

theorem justifyRow_length (l : List ℕ) : (justifyRow l).length = l.length := by
  have h := List.length_filter_le (fun x => decide (x ≠ 0)) l
  simp only [justifyRow, List.length_append, List.length_replicate]
  omega

theorem moveRowFull_length (l : List ℕ) :
    (moveRowFull l).length = l.length := by
  simp [moveRowFull, justifyRow_length, mergeRow_length]

theorem sum_getD_of_length (l : List ℕ) (h : l.length = n) :
    ∑ j : Fin n, l.getD j 0 = l.sum := by
  subst h
  rw [← List.sum_ofFn]
  congr 1
  apply List.ext_getElem
  · simp
  · intro i h1 h2
    simp [List.getD_eq_getElem]

theorem rowList_sum (g : Mat m n) (i : Fin m) :
    (rowList g i).sum = ∑ j, g i j := by
  simp [rowList, List.sum_ofFn]

theorem gridSum_leftPipe (g : Mat m n) : gridSum (leftPipe g) = gridSum g := by
  unfold gridSum leftPipe
  refine Finset.sum_congr rfl (fun i _ => ?_)
  rw [sum_getD_of_length _ (by simp [moveRowFull_length, rowList]),
    moveRowFull_sum, rowList_sum]

theorem gridSum_upT1 (g : Mat m n) : gridSum (upT1 g) = gridSum g := by
  unfold gridSum upT1
  rw [Finset.sum_comm]
  refine Finset.sum_congr rfl (fun j _ => ?_)
  exact Equiv.sum_comp (Fin.revPerm) (fun c => g j c)

theorem gridSum_upT2 (h : Mat n m) : gridSum (upT2 h) = gridSum h := by
  unfold gridSum upT2
  rw [Finset.sum_comm]
  exact Equiv.sum_comp (Fin.revPerm) (fun c => ∑ i, h c i)

theorem gridSum_downT1 (g : Mat m n) : gridSum (downT1 g) = gridSum g := by
  unfold gridSum downT1
  rw [Finset.sum_comm]
  exact Equiv.sum_comp (Fin.revPerm) (fun c => ∑ i, g c i)

theorem gridSum_downT2 (h : Mat n m) : gridSum (downT2 h) = gridSum h := by
  unfold gridSum downT2
  rw [Finset.sum_comm]
  refine Finset.sum_congr rfl (fun j _ => ?_)
  exact Equiv.sum_comp (Fin.revPerm) (fun c => h j c)

theorem gridSum_rrT (g : Mat m n) : gridSum (rrT g) = gridSum g := by
  unfold gridSum rrT
  calc ∑ i : Fin m, ∑ j : Fin n, g i.rev j.rev
      = ∑ i : Fin m, ∑ j : Fin n, g i.rev j :=
        Finset.sum_congr rfl (fun i _ => Equiv.sum_comp Fin.revPerm (g i.rev))
    _ = ∑ i, ∑ j, g i j := Equiv.sum_comp Fin.revPerm (fun c => ∑ j, g c j)

/-- C10: each of the four direction codes of `move` preserves the total of
all cell values — justification only repositions values inside a row, and
each merge replaces an equal pair `v, v` by `2v, 0`. -/
theorem applyMove_preserves_gridSum (g : Mat m n) (d : ℕ) (hd : d < 4) :
    gridSum (applyMove d g) = gridSum g := by
  match d, hd with
  | 0, _ =>
    show gridSum (upT2 (leftPipe (upT1 g))) = gridSum g
    rw [gridSum_upT2, gridSum_leftPipe, gridSum_upT1]
  | 1, _ =>
    show gridSum (downT2 (leftPipe (downT1 g))) = gridSum g
    rw [gridSum_downT2, gridSum_leftPipe, gridSum_downT1]
  | 2, _ =>
    show gridSum (leftPipe g) = gridSum g
    rw [gridSum_leftPipe]
  | 3, _ =>
    show gridSum (rrT (leftPipe (rrT g))) = gridSum g
    rw [gridSum_rrT, gridSum_leftPipe, gridSum_rrT]

/-- Witness for C10 at a concrete board and direction. -/
theorem applyMove_preserves_gridSum_witness :
    (0 : ℕ) < 4 ∧ gridSum (applyMove 0 gSlide) = gridSum gSlide :=
  ⟨by decide, applyMove_preserves_gridSum gSlide 0 (by decide)⟩

theorem getD_replicate_zero (t i : ℕ) :
    (List.replicate t (0:ℕ)).getD i 0 = 0 := by
  rw [List.getD_eq_getElem?_getD, List.getElem?_replicate]
  split <;> rfl

theorem justifyRow_filter (l : List ℕ) :
    (justifyRow l).filter (fun x => x ≠ 0) = l.filter (fun x => x ≠ 0) := by
  have h1 : (l.filter (fun x => x ≠ 0)).filter (fun x => x ≠ 0)
      = l.filter (fun x => x ≠ 0) :=
    List.filter_eq_self.mpr (fun a ha => (List.mem_filter.mp ha).2)
  have h2 : (List.replicate (l.length - (l.filter (fun x => x ≠ 0)).length)
      (0:ℕ)).filter (fun x => x ≠ 0) = [] :=
    List.filter_eq_nil_iff.mpr (fun a ha => by
      simp [List.eq_of_mem_replicate ha])
  rw [justifyRow, List.filter_append, h1, h2, List.append_nil]

theorem justifyRow_idem (l : List ℕ) :
    justifyRow (justifyRow l) = justifyRow l := by
  conv_lhs => rw [justifyRow]
  rw [justifyRow_filter, justifyRow_length, justifyRow]

theorem justifyRow_ne_of_zero_before (l : List ℕ) (k j : ℕ) (hkj : k < j)
    (hj : j < l.length) (hk : l.getD k 0 = 0) (hjv : l.getD j 0 ≠ 0) :
    justifyRow l ≠ l := by
  intro he
  have hkz : (justifyRow l).getD k 0 = 0 := by rw [he]; exact hk
  have hjz : (justifyRow l).getD j 0 ≠ 0 := by rw [he]; exact hjv
  -- the zero at position k forces k to lie at or beyond the filtered prefix
  have hkge : (l.filter (fun x => x ≠ 0)).length ≤ k := by
    by_contra hlt
    push_neg at hlt
    have h1 : (justifyRow l).getD k 0 = (l.filter (fun x => x ≠ 0)).getD k 0 := by
      rw [justifyRow]
      exact List.getD_append _ _ 0 k hlt
    have h2 : (l.filter (fun x => x ≠ 0)).getD k 0
        = (l.filter (fun x => x ≠ 0))[k] :=
      List.getD_eq_getElem _ 0 hlt
    have hmem : (l.filter (fun x => x ≠ 0))[k] ∈ l.filter (fun x => x ≠ 0) :=
      List.getElem_mem hlt
    have h3 : (l.filter (fun x => x ≠ 0))[k] ≠ 0 :=
      of_decide_eq_true (List.mem_filter.mp hmem).2
    exact h3 (by rw [← h2, ← h1, hkz])
  -- hence position j > k sits inside the replicated zero suffix
  apply hjz
  have hjge : (l.filter (fun x => x ≠ 0)).length ≤ j :=
    le_trans hkge (le_of_lt hkj)
  rw [justifyRow, List.getD_append_right _ _ 0 j hjge, getD_replicate_zero]

theorem moveRowFull_ne_of_zero_before (l : List ℕ) (k j : ℕ) (hkj : k < j)
    (hj : j < l.length) (hk : l.getD k 0 = 0) (hjv : l.getD j 0 ≠ 0) :
    moveRowFull l ≠ l := by
  intro he
  have hfix : justifyRow l = l := by
    conv_lhs => rw [← he]
    rw [moveRowFull, justifyRow_idem, ← moveRowFull, he]
  exact justifyRow_ne_of_zero_before l k j hkj hj hk hjv hfix

theorem upT2_upT1 (g : Mat m n) : upT2 (upT1 g) = g := by
  funext i j
  simp [upT1, upT2, Fin.rev_rev]

theorem downT2_downT1 (g : Mat m n) : downT2 (downT1 g) = g := by
  funext i j
  simp [downT1, downT2, Fin.rev_rev]

theorem rrT_rrT (g : Mat m n) : rrT (rrT g) = g := by
  funext i j
  simp [rrT, Fin.rev_rev]

theorem upT2_inj (a b : Mat n m) (h : upT2 a = upT2 b) : a = b := by
  funext p q
  have := congrFun (congrFun h q) p.rev
  simpa [upT2, Fin.rev_rev] using this

theorem downT2_inj (a b : Mat n m) (h : downT2 a = downT2 b) : a = b := by
  funext p q
  have := congrFun (congrFun h q.rev) p
  simpa [downT2, Fin.rev_rev] using this

theorem rrT_inj (a b : Mat m n) (h : rrT a = rrT b) : a = b := by
  have h2 : rrT (rrT a) = rrT (rrT b) := by rw [h]
  rwa [rrT_rrT, rrT_rrT] at h2

theorem leftPipe_fix_no_pattern (h : Mat a b) (hfix : leftPipe h = h)
    (i : Fin a) (j1 j2 : Fin b) (h12 : j1 < j2) (hz : h i j1 = 0)
    (hnz : h i j2 ≠ 0) : False := by
  have hlen : (rowList h i).length = b := by simp [rowList]
  have hrow : moveRowFull (rowList h i) = rowList h i := by
    apply List.ext_getElem
    · simp [moveRowFull_length]
    · intro t ht1 ht2
      have ht : t < b := by rwa [hlen] at ht2
      have hthis := congrFun (congrFun hfix i) ⟨t, ht⟩
      simp only [leftPipe] at hthis
      rw [List.getD_eq_getElem _ 0 ht1] at hthis
      rw [hthis]
      simp only [rowList]
      rw [List.getElem_ofFn]
  have hgd : ∀ c : Fin b, (rowList h i).getD c 0 = h i c := by
    intro c
    rw [List.getD_eq_getElem _ 0 (by rw [hlen]; exact c.2)]
    simp only [rowList]
    rw [List.getElem_ofFn]
  exact moveRowFull_ne_of_zero_before (rowList h i) j1 j2 h12
    (by rw [hlen]; exact j2.2) (by rw [hgd]; exact hz)
    (by rw [hgd]; exact hnz) hrow

theorem applyMove_up_ne (g : Mat m n) (j : Fin n) (i1 i2 : Fin m)
    (h12 : i1 < i2) (hz : g i1 j = 0) (hnz : g i2 j ≠ 0) :
    applyMove 0 g ≠ g := by
  intro he
  have hfix : leftPipe (upT1 g) = upT1 g := by
    apply upT2_inj
    rw [upT2_upT1]
    exact he
  refine leftPipe_fix_no_pattern (upT1 g) hfix j.rev i1 i2 h12 ?_ ?_
  · simpa [upT1, Fin.rev_rev] using hz
  · simpa [upT1, Fin.rev_rev] using hnz

theorem applyMove_down_ne (g : Mat m n) (j : Fin n) (i1 i2 : Fin m)
    (h12 : i1 < i2) (hnz : g i1 j ≠ 0) (hz : g i2 j = 0) :
    applyMove 1 g ≠ g := by
  intro he
  have hfix : leftPipe (downT1 g) = downT1 g := by
    apply downT2_inj
    rw [downT2_downT1]
    exact he
  refine leftPipe_fix_no_pattern (downT1 g) hfix j i2.rev i1.rev
    (by rwa [Fin.rev_lt_rev]) ?_ ?_
  · simpa [downT1, Fin.rev_rev] using hz
  · simpa [downT1, Fin.rev_rev] using hnz

theorem applyMove_left_ne (g : Mat m n) (i : Fin m) (j1 j2 : Fin n)
    (h12 : j1 < j2) (hz : g i j1 = 0) (hnz : g i j2 ≠ 0) :
    applyMove 2 g ≠ g := by
  intro he
  exact leftPipe_fix_no_pattern g he i j1 j2 h12 hz hnz

theorem applyMove_right_ne (g : Mat m n) (i : Fin m) (j1 j2 : Fin n)
    (h12 : j1 < j2) (hnz : g i j1 ≠ 0) (hz : g i j2 = 0) :
    applyMove 3 g ≠ g := by
  intro he
  have hfix : leftPipe (rrT g) = rrT g := by
    apply rrT_inj
    rw [rrT_rrT]
    exact he
  refine leftPipe_fix_no_pattern (rrT g) hfix i.rev j2.rev j1.rev
    (by rwa [Fin.rev_lt_rev]) ?_ ?_
  · simpa [rrT, Fin.rev_rev] using hz
  · simpa [rrT, Fin.rev_rev] using hnz

theorem scanRow_sound (g : Mat m n) (i : Fin m) :
    ∀ (js : List (Fin n)) (s : ZFlags n) (saw0 saw1 : Bool),
    js.Pairwise (· < ·) →
    FlagsSound g s →
    (saw0 = true → ∃ j0, (∀ x ∈ js, j0 < x) ∧ g i j0 = 0) →
    (saw1 = true → ∃ j1, (∀ x ∈ js, j1 < x) ∧ g i j1 ≠ 0) →
    (∀ c, s.vSaw0 c = true →
      (∃ i0, i0 < i ∧ g i0 c = 0) ∨ (g i c = 0 ∧ ∀ x ∈ js, c < x)) →
    (∀ c, s.vSaw1 c = true →
      (∃ i0, i0 < i ∧ g i0 c ≠ 0) ∨ (g i c ≠ 0 ∧ ∀ x ∈ js, c < x)) →
    FlagsSound g (scanRow g i js s saw0 saw1) ∧
    (∀ c, (scanRow g i js s saw0 saw1).vSaw0 c = true →
      (∃ i0, i0 < i ∧ g i0 c = 0) ∨ g i c = 0) ∧
    (∀ c, (scanRow g i js s saw0 saw1).vSaw1 c = true →
      (∃ i0, i0 < i ∧ g i0 c ≠ 0) ∨ g i c ≠ 0) := by
  intro js
  induction js with
  | nil =>
    intro s saw0 saw1 _ hflags _ _ hv0 hv1
    refine ⟨hflags, fun c hc => ?_, fun c hc => ?_⟩
    · rcases hv0 c hc with h | ⟨h, _⟩
      · exact Or.inl h
      · exact Or.inr h
    · rcases hv1 c hc with h | ⟨h, _⟩
      · exact Or.inl h
      · exact Or.inr h
  | cons j js ih =>
    intro s saw0 saw1 hsort hflags hs0 hs1 hv0 hv1
    obtain ⟨hhd, htl⟩ := List.pairwise_cons.mp hsort
    obtain ⟨huc, hdc, hlc, hrc⟩ := hflags
    by_cases hz : g i j = 0
    · rw [scanRow, if_pos hz]
      apply ih _ true saw1 htl
      · refine ⟨huc, fun h => ?_, hlc, fun h => ?_⟩
        · simp only [Bool.or_eq_true] at h
          rcases h with h | h
          · exact hdc h
          · rcases hv1 j h with ⟨i0, hi0, hne⟩ | ⟨_, hall⟩
            · exact ⟨j, i0, i, hi0, hne, hz⟩
            · exact absurd (hall j (List.mem_cons_self j js)) (lt_irrefl j)
        · simp only [Bool.or_eq_true] at h
          rcases h with h | h
          · exact hrc h
          · obtain ⟨j1, hall, hnz⟩ := hs1 h
            exact ⟨i, j1, j, hall j (List.mem_cons_self j js), hnz, hz⟩
      · exact fun _ => ⟨j, hhd, hz⟩
      · intro h
        obtain ⟨j1, hall, hnz⟩ := hs1 h
        exact ⟨j1, fun x hx => hall x (List.mem_cons_of_mem _ hx), hnz⟩
      · intro c hc
        by_cases hcj : c = j
        · subst hcj
          exact Or.inr ⟨hz, hhd⟩
        · simp only [if_neg hcj] at hc
          rcases hv0 c hc with h | ⟨hzc, hall⟩
          · exact Or.inl h
          · exact Or.inr ⟨hzc, fun x hx => hall x (List.mem_cons_of_mem _ hx)⟩
      · intro c hc
        rcases hv1 c hc with h | ⟨hzc, hall⟩
        · exact Or.inl h
        · exact Or.inr ⟨hzc, fun x hx => hall x (List.mem_cons_of_mem _ hx)⟩
    · rw [scanRow, if_neg hz]
      apply ih _ saw0 true htl
      · refine ⟨fun h => ?_, hdc, fun h => ?_, hrc⟩
        · simp only [Bool.or_eq_true] at h
          rcases h with h | h
          · exact huc h
          · rcases hv0 j h with ⟨i0, hi0, hz0⟩ | ⟨_, hall⟩
            · exact ⟨j, i0, i, hi0, hz0, hz⟩
            · exact absurd (hall j (List.mem_cons_self j js)) (lt_irrefl j)
        · simp only [Bool.or_eq_true] at h
          rcases h with h | h
          · exact hlc h
          · obtain ⟨j0, hall, hz0⟩ := hs0 h
            exact ⟨i, j0, j, hall j (List.mem_cons_self j js), hz0, hz⟩
      · intro h
        obtain ⟨j0, hall, hz0⟩ := hs0 h
        exact ⟨j0, fun x hx => hall x (List.mem_cons_of_mem _ hx), hz0⟩
      · exact fun _ => ⟨j, hhd, hz⟩
      · intro c hc
        rcases hv0 c hc with h | ⟨hzc, hall⟩
        · exact Or.inl h
        · exact Or.inr ⟨hzc, fun x hx => hall x (List.mem_cons_of_mem _ hx)⟩
      · intro c hc
        by_cases hcj : c = j
        · subst hcj
          exact Or.inr ⟨hz, hhd⟩
        · simp only [if_neg hcj] at hc
          rcases hv1 c hc with h | ⟨hzc, hall⟩
          · exact Or.inl h
          · exact Or.inr ⟨hzc, fun x hx => hall x (List.mem_cons_of_mem _ hx)⟩

theorem scanRows_sound (g : Mat m n) :
    ∀ (is : List (Fin m)) (s : ZFlags n),
    is.Pairwise (· < ·) →
    FlagsSound g s →
    (∀ c, s.vSaw0 c = true → ∃ i0, (∀ x ∈ is, i0 < x) ∧ g i0 c = 0) →
    (∀ c, s.vSaw1 c = true → ∃ i0, (∀ x ∈ is, i0 < x) ∧ g i0 c ≠ 0) →
    FlagsSound g (scanRows g is s) := by
  intro is
  induction is with
  | nil =>
    intro s _ hflags _ _
    exact hflags
  | cons i is ih =>
    intro s hsort hflags hv0 hv1
    obtain ⟨hhd, htl⟩ := List.pairwise_cons.mp hsort
    rw [scanRows]
    obtain ⟨hflags2, hv0end, hv1end⟩ :=
      scanRow_sound g i (List.finRange n) s false false
        (List.pairwise_lt_finRange n) hflags
        (fun h => absurd h (by simp))
        (fun h => absurd h (by simp))
        (fun c hc => by
          obtain ⟨i0, hall, hz⟩ := hv0 c hc
          exact Or.inl ⟨i0, hall i (List.mem_cons_self i is), hz⟩)
        (fun c hc => by
          obtain ⟨i0, hall, hne⟩ := hv1 c hc
          exact Or.inl ⟨i0, hall i (List.mem_cons_self i is), hne⟩)
    apply ih _ htl hflags2
    · intro c hc
      rcases hv0end c hc with ⟨i0, hi0, hz⟩ | hz
      · exact ⟨i0, fun x hx => lt_trans hi0 (hhd x hx), hz⟩
      · exact ⟨i, hhd, hz⟩
    · intro c hc
      rcases hv1end c hc with ⟨i0, hi0, hne⟩ | hne
      · exact ⟨i0, fun x hx => lt_trans hi0 (hhd x hx), hne⟩
      · exact ⟨i, hhd, hne⟩

theorem getAvailableFromZeros_sound (g : Mat m n) :
    FlagsSound g (scanRows g (List.finRange m) (initFlags n)) := by
  apply scanRows_sound g (List.finRange m) (initFlags n)
    (List.pairwise_lt_finRange m)
  · exact ⟨fun h => absurd h (by simp [initFlags]),
      fun h => absurd h (by simp [initFlags]),
      fun h => absurd h (by simp [initFlags]),
      fun h => absurd h (by simp [initFlags])⟩
  · exact fun c hc => absurd hc (by simp [initFlags])
  · exact fun c hc => absurd hc (by simp [initFlags])

theorem moveCall_bool (g : Mat m n) (d : ℕ) :
    (moveCall g d true).2.getD false = decide (applyMove d g ≠ g) := by
  show (some (!(gridEqAllB g (applyMove d g)))).getD false = _
  rw [Option.getD_some, gridEqAllB, ← decide_not]
  apply decide_eq_decide.mpr
  constructor
  · intro hnall heq
    exact hnall (fun i j => by rw [heq])
  · intro hne hall
    exact hne (funext fun i => funext fun j => (hall i j).symm)

theorem getAvailableMoves_eq_filter (g : Mat m n) :
    getAvailableMoves g =
      (List.range 4).filter (fun d => decide (applyMove d g ≠ g)) := by
  obtain ⟨huc, hdc, hlc, hrc⟩ := getAvailableFromZeros_sound g
  unfold getAvailableMoves
  apply List.filter_congr
  intro x hx
  rw [List.mem_range] at hx
  by_cases hfl : (getAvailableFromZeros g).getD x false = true
  · rw [if_pos hfl]
    symm
    rw [decide_eq_true_eq]
    interval_cases x
    · obtain ⟨j, i1, i2, h12, hz, hnz⟩ :=
        huc (by simpa [getAvailableFromZeros] using hfl)
      exact applyMove_up_ne g j i1 i2 h12 hz hnz
    · obtain ⟨j, i1, i2, h12, hnz, hz⟩ :=
        hdc (by simpa [getAvailableFromZeros] using hfl)
      exact applyMove_down_ne g j i1 i2 h12 hnz hz
    · obtain ⟨i, j1, j2, h12, hz, hnz⟩ :=
        hlc (by simpa [getAvailableFromZeros] using hfl)
      exact applyMove_left_ne g i j1 j2 h12 hz hnz
    · obtain ⟨i, j1, j2, h12, hnz, hz⟩ :=
        hrc (by simpa [getAvailableFromZeros] using hfl)
      exact applyMove_right_ne g i j1 j2 h12 hnz hz
  · rw [if_neg hfl]
    exact moveCall_bool g x

/-- C1: `get_available_moves()` returns exactly the directions whose
simulated move on a clone changes the grid, listed in the canonical order
Up, Down, Left, Right — the fast zero/non-zero adjacency scan combined with
the simulated-move fallback is equivalent to simulating every direction. -/
theorem getAvailableMoves_matches_simulation (g : Mat m n) :
    getAvailableMoves g =
      (List.range 4).filter (fun d => decide (applyMove d g ≠ g)) :=
  getAvailableMoves_eq_filter g

/-- C9: the Expectimax strategy is deterministic — on two boards with
identical grids, and whatever the state of the ambient random source, the
EXPECTIMAX branch of `get_move` returns the identical move; the random
stream parameter is never consulted by `maximize`/`chance`. -/
theorem getMoveExpectimax_deterministic (g h : Mat nn nn)
    (r1 r2 : ℕ → ℕ) (hgh : g = h) :
    getMoveExpectimax r1 g = getMoveExpectimax r2 h := by
  subst hgh
  rfl

/-- Witness for C9 at the concrete board `g44` and two distinct random
streams. -/
theorem getMoveExpectimax_deterministic_witness :
    g44 = g44 ∧
      getMoveExpectimax (fun k => k) g44 =
        getMoveExpectimax (fun k => k + 1) g44 :=
  ⟨rfl, getMoveExpectimax_deterministic g44 g44 (fun k => k)
    (fun k => k + 1) rfl⟩

theorem chanceLoop_eq_sum (g : Mat nn nn) (d : ℕ) :
    ∀ (ts : List ((Fin nn × Fin nn) × ℕ × ℝ)) (acc : Util),
    chanceLoop g d ts acc =
      acc + (ts.map (fun t =>
        wsmul t.2.2 ((maximize (insertTile g t.1 t.2.1) (d + 1)).2))).sum := by
  intro ts
  induction ts with
  | nil =>
    intro acc
    rw [chanceLoop]
    simp
  | cons t ts ih =>
    intro acc
    rw [chanceLoop, ih, List.map_cons, List.sum_cons, add_assoc]

theorem flatMap_pair_map_sum {α β γ : Type} [AddCommMonoid γ]
    (cs : List α) (f1 f2 : α → β) (term : β → γ) :
    ((cs.flatMap (fun c => [f1 c, f2 c])).map term).sum
      = (cs.map (fun c => term (f1 c) + term (f2 c))).sum := by
  induction cs with
  | nil => rfl
  | cons c cs ih =>
    simp only [List.flatMap_cons, List.map_append, List.sum_append,
      List.map_cons, List.sum_cons, List.map_nil, List.sum_nil, add_zero,
      ih, add_assoc]

/-- C7: when at least one cell is empty and the cost-control cutoff does
not fire, `chance(board, depth)` equals the componentwise sum over every
(empty cell, tile value) pair of `maximize`'s utility tuple on a clone with
that tile inserted, weighted `0.9/n` for value 2 and `0.1/n` for value 4;
and those weights over all pairs sum to 1. -/
theorem chance_weighted_sum (g : Mat nn nn) (d : ℕ)
    (hne : 1 ≤ (availableCells g).length)
    (hcut : ¬((availableCells g).length ≥ nn * 2 ∧ chanceMaxDepth nn ≤ d)) :
    chance g d =
      ((availableCells g).map (fun c =>
        wsmul ((0.9 : ℝ) * (1 / ((availableCells g).length : ℝ)))
            ((maximize (insertTile g c 2) (d + 1)).2) +
        wsmul ((0.1 : ℝ) * (1 / ((availableCells g).length : ℝ)))
            ((maximize (insertTile g c 4) (d + 1)).2))).sum ∧
      ((availableCells g).length : ℝ) *
          ((0.9 : ℝ) * (1 / ((availableCells g).length : ℝ))) +
        ((availableCells g).length : ℝ) *
          ((0.1 : ℝ) * (1 / ((availableCells g).length : ℝ))) = 1 := by
  constructor
  · rw [chance, if_neg hcut, if_neg (by omega)]
    rw [chanceLoop_eq_sum]
    rw [flatMap_pair_map_sum (availableCells g)
      (fun c => (c, (2:ℕ), (0.9 : ℝ) * (1 / ((availableCells g).length : ℝ))))
      (fun c => (c, (4:ℕ), (0.1 : ℝ) * (1 / ((availableCells g).length : ℝ))))]
    simp
  · have hnz : ((availableCells g).length : ℝ) ≠ 0 :=
      Nat.cast_ne_zero.mpr (by omega)
    field_simp
    norm_num

/-- Witness for C7 at the concrete board `[[0,2],[0,0]]` (three empty
cells) at depth 0. -/
theorem chance_weighted_sum_witness :
    1 ≤ (availableCells gSlide).length ∧
      ¬((availableCells gSlide).length ≥ 2 * 2 ∧ chanceMaxDepth 2 ≤ 0) ∧
      (chance gSlide 0 =
        ((availableCells gSlide).map (fun c =>
          wsmul ((0.9 : ℝ) * (1 / ((availableCells gSlide).length : ℝ)))
              ((maximize (insertTile gSlide c 2) (0 + 1)).2) +
          wsmul ((0.1 : ℝ) * (1 / ((availableCells gSlide).length : ℝ)))
              ((maximize (insertTile gSlide c 4) (0 + 1)).2))).sum ∧
        ((availableCells gSlide).length : ℝ) *
            ((0.9 : ℝ) * (1 / ((availableCells gSlide).length : ℝ))) +
          ((availableCells gSlide).length : ℝ) *
            ((0.1 : ℝ) * (1 / ((availableCells gSlide).length : ℝ))) = 1) :=
  ⟨by decide, by decide, chance_weighted_sum gSlide 0 (by decide) (by decide)⟩

theorem head_filter_eq_find {α : Type} (p : α → Bool) (l : List α) :
    (l.filter p).head? = l.find? p := by
  induction l with
  | nil => rfl
  | cons a l ih =>
    by_cases h : p a
    · rw [List.filter_cons, if_pos h, List.find?_cons_of_pos _ h]
      rfl
    · rw [List.filter_cons, if_neg h, List.find?_cons_of_neg _ h, ih]

theorem afterOpp_eq_oppSpec (h : Mat nn nn) : afterOpp h = oppSpec h := by
  have hh : (availableCells h).head? = firstEmptyRowMajor h :=
    head_filter_eq_find _ _
  rw [afterOpp, oppSpec]
  cases hav : availableCells h with
  | nil =>
    rw [hav] at hh
    rw [← hh]
    rfl
  | cons c rest =>
    rw [hav] at hh
    rw [← hh]
    rfl

theorem mmMaxLoop_ge_acc (f : Mat nn nn → EReal) (g : Mat nn nn) :
    ∀ (ms : List ℕ) (acc : EReal), acc ≤ mmMaxLoop f g ms acc := by
  intro ms
  induction ms with
  | nil =>
    intro acc
    exact le_refl acc
  | cons m ms ih =>
    intro acc
    exact le_trans (le_max_left acc _) (ih _)

theorem mmMaxLoop_ge_elem (f : Mat nn nn → EReal) (g : Mat nn nn) (m : ℕ) :
    ∀ (ms : List ℕ) (acc : EReal), m ∈ ms →
    f (afterOpp (applyMove m g)) ≤ mmMaxLoop f g ms acc := by
  intro ms
  induction ms with
  | nil => intro acc hmem; exact absurd hmem (List.not_mem_nil m)
  | cons m2 ms ih =>
    intro acc hmem
    rcases List.mem_cons.mp hmem with h | h
    · subst h
      exact le_trans (le_max_right acc _) (mmMaxLoop_ge_acc f g ms _)
    · exact ih _ h

theorem mmMinLoop_pos_bot (f : Mat nn nn → EReal) (g : Mat nn nn) :
    ∀ (cs : List (Fin nn × Fin nn)) (acc : EReal), ⊥ < acc →
    (∀ c ∈ cs, ⊥ < f (insertTile g c 4)) →
    ⊥ < mmMinLoop f g cs acc := by
  intro cs
  induction cs with
  | nil => intro acc hacc _; exact hacc
  | cons c cs ih =>
    intro acc hacc hall
    apply ih
    · exact lt_min hacc (hall c (List.mem_cons_self c cs))
    · exact fun c2 hc2 => hall c2 (List.mem_cons_of_mem _ hc2)

/-- Every value of the inner minimax recursion exceeds `float(-inf)`: the
terminal evaluation is a finite real, the maximizing layer is entered only
with a nonempty move list, and the minimizing layer starts from
`float(inf)`. -/
theorem mm_pos_bot (depth : ℕ) :
    ∀ (g : Mat nn nn) (isMax : Bool), ⊥ < mm depth g isMax := by
  induction depth with
  | zero => intro g isMax; exact EReal.bot_lt_coe _
  | succ dn ih =>
    intro g isMax
    rw [mm]
    by_cases hmv : getAvailableMoves g = []
    · rw [if_pos hmv]
      exact EReal.bot_lt_coe _
    · rw [if_neg hmv]
      cases isMax with
      | true =>
        simp only [if_pos]
        obtain ⟨m, hm⟩ := List.exists_mem_of_ne_nil _ hmv
        exact lt_of_lt_of_le (ih (afterOpp (applyMove m g)) false)
          (mmMaxLoop_ge_elem (fun h => mm dn h false) g m _ ⊥ hm)
      | false =>
        simp only [Bool.false_eq_true, if_false]
        refine mmMinLoop_pos_bot _ g _ ⊤ ?_ (fun c _ => ih _ _)
        exact Ne.bot_lt (by simp)

theorem mmTopLoop_keep (g : Mat nn nn) :
    ∀ (ms : List ℕ) (acc : Option ℕ × EReal),
    (∀ m2 ∈ ms, ¬(acc.2 < mm 3 (afterOpp (applyMove m2 g)) false)) →
    mmTopLoop g ms acc = acc := by
  intro ms
  induction ms with
  | nil => intro acc _; rfl
  | cons mv ms ih =>
    intro acc hall
    rw [mmTopLoop]
    rw [if_neg (hall mv (List.mem_cons_self mv ms))]
    exact ih acc (fun m2 hm2 => hall m2 (List.mem_cons_of_mem _ hm2))

theorem mmTopLoop_best (g : Mat nn nn) (mv : ℕ) :
    ∀ (ms : List ℕ) (acc : Option ℕ × EReal),
    mv ∈ ms →
    (∀ m2 ∈ ms, m2 ≠ mv →
      mm 3 (afterOpp (applyMove m2 g)) false <
        mm 3 (afterOpp (applyMove mv g)) false) →
    acc.2 < mm 3 (afterOpp (applyMove mv g)) false →
    mmTopLoop g ms acc = (some mv, mm 3 (afterOpp (applyMove mv g)) false) := by
  intro ms
  induction ms with
  | nil => intro acc hmem; exact absurd hmem (List.not_mem_nil mv)
  | cons m ms ih =>
    intro acc hmem hdom hacc
    by_cases hm : m = mv
    · subst hm
      rw [mmTopLoop]
      rw [if_pos hacc]
      apply mmTopLoop_keep
      intro m2 hm2
      by_cases hm2v : m2 = m
      · subst hm2v
        exact lt_irrefl _
      · exact not_lt_of_lt (hdom m2 (List.mem_cons_of_mem _ hm2) hm2v)
    · have hmem2 : mv ∈ ms := by
        rcases List.mem_cons.mp hmem with h | h
        · exact absurd h.symm hm
        · exact h
      have hlt : mm 3 (afterOpp (applyMove m g)) false <
          mm 3 (afterOpp (applyMove mv g)) false :=
        hdom m (List.mem_cons_self m ms) hm
      rw [mmTopLoop]
      by_cases hif : acc.2 < mm 3 (afterOpp (applyMove m g)) false
      · rw [if_pos hif]
        exact ih _ hmem2
          (fun m2 hm2 hne => hdom m2 (List.mem_cons_of_mem _ hm2) hne) hlt
      · rw [if_neg hif]
        exact ih acc hmem2
          (fun m2 hm2 hne => hdom m2 (List.mem_cons_of_mem _ hm2) hne) hacc

/-- C8: in the Minimax strategy the opponent's tile after every simulated
legal move is a 4 (never a 2) placed at the first available empty cell in
row-major enumeration order whenever a cell is empty (no minimizing search
over cells), both in the recursive maximizing layer and in the top-level
dispatch loop; and the top level keeps the move with strictly greatest
scalar evaluation. -/
theorem minimax_opponent_and_top_choice (g : Mat nn nn) (mv : ℕ)
    (hmem : mv ∈ getAvailableMoves g)
    (hbest : ∀ m2 ∈ getAvailableMoves g, m2 ≠ mv →
      scoreOf g m2 < scoreOf g mv) :
    (∀ h : Mat nn nn, afterOpp h = oppSpec h) ∧ minimaxMove g = some mv := by
  refine ⟨afterOpp_eq_oppSpec, ?_⟩
  have hsc : ∀ m2, scoreOf g m2 = mm 3 (afterOpp (applyMove m2 g)) false := by
    intro m2
    rw [scoreOf, afterOpp_eq_oppSpec]
  rw [minimaxMove, mmTopLoop_best g mv (getAvailableMoves g) (none, ⊥) hmem
    (fun m2 hm2 hne => by rw [← hsc, ← hsc]; exact hbest m2 hm2 hne)
    (mm_pos_bot 3 _ false)]

/-- Witness for C8 at the concrete board `[[4,2],[0,0]]`, whose sole legal
move is Down (code 1), making the strict-domination hypothesis vacuous. -/
theorem minimax_opponent_and_top_choice_witness :
    (1 ∈ getAvailableMoves gOne) ∧
      ((∀ h : Mat 2 2, afterOpp h = oppSpec h) ∧ minimaxMove gOne = some 1) := by
  have havail : getAvailableMoves gOne = [1] := by decide
  refine ⟨by rw [havail]; exact List.mem_singleton.mpr rfl, ?_⟩
  apply minimax_opponent_and_top_choice gOne 1
    (by rw [havail]; exact List.mem_singleton.mpr rfl)
  intro m2 hm2 hne
  rw [havail] at hm2
  exact absurd (List.mem_singleton.mp hm2) hne

theorem mem_getAvailableMoves (g : Mat m n) (x : ℕ) :
    x ∈ getAvailableMoves g ↔ x < 4 ∧ applyMove x g ≠ g := by
  rw [getAvailableMoves_eq_filter, List.mem_filter, List.mem_range,
    decide_eq_true_eq]

theorem filter_map_sum {α γ : Type} [AddCommMonoid γ] (p : α → Bool)
    (F : α → γ) :
    ∀ l : List α,
    ((l.filter p).map F).sum = (l.map (fun a => if p a then F a else 0)).sum := by
  intro l
  induction l with
  | nil => rfl
  | cons a l ih =>
    rw [List.filter_cons]
    by_cases h : p a
    · rw [if_pos h, List.map_cons, List.sum_cons, List.map_cons,
        List.sum_cons, ih, if_pos h]
    · rw [if_neg h, List.map_cons, List.sum_cons, ih, if_neg h, zero_add]

theorem flatMap_map_sum {α β γ : Type} [AddCommMonoid γ] (l : List α)
    (f : α → List β) (h : β → γ) :
    ((l.flatMap f).map h).sum = (l.map (fun a => ((f a).map h).sum)).sum := by
  induction l with
  | nil => rfl
  | cons a l ih =>
    rw [List.flatMap_cons, List.map_append, List.sum_append, ih,
      List.map_cons, List.sum_cons]

theorem cellList_map_sum {γ : Type} [AddCommMonoid γ]
    (h : Fin m × Fin n → γ) :
    ((cellList m n).map h).sum = ∑ p : Fin m × Fin n, h p := by
  rw [cellList, flatMap_map_sum, Fintype.sum_prod_type]
  rw [Fin.sum_univ_def]
  congr 1
  apply List.map_congr_left
  intro i _
  rw [List.map_map, Fin.sum_univ_def]
  rfl

theorem availableCells_map_sum {γ : Type} [AddCommMonoid γ] (g : Mat m n)
    (F : Fin m × Fin n → γ) :
    ((availableCells g).map F).sum =
      ∑ p : Fin m × Fin n, if g p.1 p.2 = 0 then F p else 0 := by
  rw [availableCells, filter_map_sum, cellList_map_sum]
  refine Finset.sum_congr rfl (fun p _ => ?_)
  by_cases h : g p.1 p.2 = 0
  · rw [if_pos h, if_pos (decide_eq_true h)]
  · rw [if_neg h, if_neg (by simpa using h)]

theorem availableCells_length_eq_sum (g : Mat m n) :
    (availableCells g).length =
      ∑ p : Fin m × Fin n, if g p.1 p.2 = 0 then 1 else 0 := by
  have h := availableCells_map_sum g (fun _ => (1 : ℕ))
  rw [← h]
  rw [List.map_const', List.sum_replicate, smul_eq_mul, mul_one]

theorem sum_cells_equiv {γ : Type} [AddCommMonoid γ] (g φg : Mat nn nn)
    (e : (Fin nn × Fin nn) ≃ (Fin nn × Fin nn))
    (hpt : ∀ p : Fin nn × Fin nn, φg p.1 p.2 = g (e p).1 (e p).2)
    (F G : Fin nn × Fin nn → γ)
    (hFG : ∀ p, φg p.1 p.2 = 0 → F p = G (e p)) :
    ((availableCells φg).map F).sum = ((availableCells g).map G).sum := by
  rw [availableCells_map_sum, availableCells_map_sum]
  rw [← Equiv.sum_comp e (fun p => if g p.1 p.2 = 0 then G p else 0)]
  refine Finset.sum_congr rfl (fun p _ => ?_)
  by_cases hz : φg p.1 p.2 = 0
  · rw [if_pos hz, if_pos (by rw [← hpt]; exact hz), hFG p hz]
  · rw [if_neg hz, if_neg (by rw [← hpt]; exact hz)]

theorem availableCells_length_equiv (g φg : Mat nn nn)
    (e : (Fin nn × Fin nn) ≃ (Fin nn × Fin nn))
    (hpt : ∀ p : Fin nn × Fin nn, φg p.1 p.2 = g (e p).1 (e p).2) :
    (availableCells φg).length = (availableCells g).length := by
  have h := sum_cells_equiv g φg e hpt (fun _ => (1 : ℕ)) (fun _ => 1)
    (fun _ _ => rfl)
  have h1 := availableCells_map_sum φg (fun _ => (1 : ℕ))
  have h2 := availableCells_map_sum g (fun _ => (1 : ℕ))
  rw [availableCells_length_eq_sum, availableCells_length_eq_sum, ← h1, ← h2, h]

theorem mirH_inj (a b : Mat nn nn) (h : mirH a = mirH b) : a = b := by
  funext p q
  have := congrFun (congrFun h p) q.rev
  simpa [mirH, Fin.rev_rev] using this

theorem transp_inj (a b : Mat nn nn) (h : transp a = transp b) : a = b := by
  funext p q
  exact congrFun (congrFun h q) p

theorem applyMove_mirH (d : ℕ) (g : Mat nn nn) :
    applyMove d (mirH g) = mirH (applyMove (swapLR d) g) := by
  match d with
  | 0 =>
    show upT2 (leftPipe (upT1 (mirH g))) = mirH (upT2 (leftPipe (upT1 g)))
    funext i j
    simp [upT1, upT2, leftPipe, rowList, mirH, Fin.rev_rev]
    have hf : upT1 (mirH g) j.rev = upT1 g j := by
      funext c
      simp [upT1, downT1, rrT, mirH, transp, Fin.rev_rev]
    rw [hf]
  | 1 =>
    show downT2 (leftPipe (downT1 (mirH g))) = mirH (downT2 (leftPipe (downT1 g)))
    funext i j
    simp [downT1, downT2, leftPipe, rowList, mirH, Fin.rev_rev]
    have hf : downT1 (mirH g) j = downT1 g j.rev := by
      funext c
      simp [upT1, downT1, rrT, mirH, transp, Fin.rev_rev]
    rw [hf]
  | 2 =>
    show leftPipe (mirH g) = mirH (rrT (leftPipe (rrT g)))
    funext i j
    simp [leftPipe, rowList, mirH, rrT, Fin.rev_rev]
    have hf : mirH g i = rrT g i.rev := by
      funext c
      simp [upT1, downT1, rrT, mirH, transp, Fin.rev_rev]
    rw [hf]
  | 3 =>
    show rrT (leftPipe (rrT (mirH g))) = mirH (leftPipe g)
    funext i j
    simp [leftPipe, rowList, mirH, rrT, Fin.rev_rev]
    have hf : rrT (mirH g) i.rev = g i := by
      funext c
      simp [upT1, downT1, rrT, mirH, transp, Fin.rev_rev]
    rw [hf]
  | (k + 4) =>
    show mirH g = mirH (applyMove (k + 4) g)
    rfl

theorem applyMove_transp (d : ℕ) (g : Mat nn nn) :
    applyMove d (transp g) = transp (applyMove (swapUL d) g) := by
  match d with
  | 0 =>
    show upT2 (leftPipe (upT1 (transp g))) = transp (leftPipe g)
    funext i j
    simp [upT1, upT2, leftPipe, rowList, transp, Fin.rev_rev]
    have hf : upT1 (transp g) j.rev = g j := by
      funext c
      simp [upT1, downT1, rrT, mirH, transp, Fin.rev_rev]
    rw [hf]
  | 1 =>
    show downT2 (leftPipe (downT1 (transp g))) = transp (rrT (leftPipe (rrT g)))
    funext i j
    simp [downT1, downT2, leftPipe, rowList, transp, rrT, Fin.rev_rev]
    have hf : downT1 (transp g) j = rrT g j.rev := by
      funext c
      simp [upT1, downT1, rrT, mirH, transp, Fin.rev_rev]
    rw [hf]
  | 2 =>
    show leftPipe (transp g) = transp (upT2 (leftPipe (upT1 g)))
    funext i j
    simp [upT1, upT2, leftPipe, rowList, transp, Fin.rev_rev]
    have hf : transp g i = upT1 g i.rev := by
      funext c
      simp [upT1, downT1, rrT, mirH, transp, Fin.rev_rev]
    rw [hf]
  | 3 =>
    show rrT (leftPipe (rrT (transp g))) = transp (downT2 (leftPipe (downT1 g)))
    funext i j
    simp [downT1, downT2, leftPipe, rowList, transp, rrT, Fin.rev_rev]
    have hf : rrT (transp g) i.rev = downT1 g i := by
      funext c
      simp [upT1, downT1, rrT, mirH, transp, Fin.rev_rev]
    rw [hf]
  | (k + 4) =>
    show transp g = transp (applyMove (k + 4) g)
    rfl

theorem insertTile_mirH (g : Mat nn nn) (p : Fin nn × Fin nn) (v : ℕ) :
    insertTile (mirH g) p v = mirH (insertTile g (p.1, p.2.rev) v) := by
  funext i j
  simp only [insertTile, mirH]
  by_cases h1 : i = p.1
  · by_cases h2 : j = p.2
    · rw [if_pos ⟨h1, h2⟩, if_pos ⟨h1, by rw [h2]⟩]
    · rw [if_neg (fun hc => h2 hc.2),
        if_neg (fun hc => h2 (Fin.rev_inj.mp hc.2))]
  · rw [if_neg (fun hc => h1 hc.1), if_neg (fun hc => h1 hc.1)]

theorem insertTile_transp (g : Mat nn nn) (p : Fin nn × Fin nn) (v : ℕ) :
    insertTile (transp g) p v = transp (insertTile g (p.2, p.1) v) := by
  funext i j
  simp only [insertTile, transp]
  by_cases h1 : i = p.1
  · by_cases h2 : j = p.2
    · rw [if_pos ⟨h1, h2⟩, if_pos ⟨h2, h1⟩]
    · rw [if_neg (fun hc => h2 hc.2), if_neg (fun hc => h2 hc.1)]
  · rw [if_neg (fun hc => h1 hc.1), if_neg (fun hc => h1 hc.2)]

theorem rowPairs_sym (k : ℕ) (r : Fin k → ℕ) :
    (∑ j : Fin k, if h : (j : ℕ) + 1 < k then
        |Real.sqrt (r j) - Real.sqrt (r ⟨(j : ℕ) + 1, h⟩)| else 0)
      = ∑ j1 : Fin k, ∑ j2 : Fin k, if (j1 : ℕ) + 1 = (j2 : ℕ) then
          |Real.sqrt (r j1) - Real.sqrt (r j2)| else 0 := by
  refine Finset.sum_congr rfl (fun j1 _ => ?_)
  by_cases h : (j1 : ℕ) + 1 < k
  · rw [dif_pos h]
    rw [Finset.sum_eq_single (⟨(j1 : ℕ) + 1, h⟩ : Fin k)]
    · rw [if_pos rfl]
    · intro b _ hb
      refine if_neg (fun hc => hb ?_)
      exact Fin.ext hc.symm
    · intro habs
      exact absurd (Finset.mem_univ _) habs
  · rw [dif_neg h]
    symm
    apply Finset.sum_eq_zero
    intro b _
    refine if_neg (fun hc => h ?_)
    rw [hc]
    exact b.2

theorem rowPairs_mirror (k : ℕ) (r : Fin k → ℕ) :
    (∑ j : Fin k, if h : (j : ℕ) + 1 < k then
        |Real.sqrt (r j.rev) - Real.sqrt (r (⟨(j : ℕ) + 1, h⟩ : Fin k).rev)|
      else 0)
      = ∑ j : Fin k, if h : (j : ℕ) + 1 < k then
        |Real.sqrt (r j) - Real.sqrt (r ⟨(j : ℕ) + 1, h⟩)| else 0 := by
  have flat : ∀ T : Fin k → Fin k → ℝ,
      (∑ j1, ∑ j2, T j1 j2) = ∑ p : Fin k × Fin k, T p.1 p.2 := by
    intro T
    rw [← Finset.univ_product_univ, Finset.sum_product]
  rw [rowPairs_sym k (fun x => r x.rev), rowPairs_sym k r, flat, flat]
  apply Fintype.sum_equiv
    ⟨fun p => (p.2.rev, p.1.rev), fun p => (p.2.rev, p.1.rev),
      fun p => by simp [Fin.rev_rev], fun p => by simp [Fin.rev_rev]⟩
  intro p
  obtain ⟨j1, j2⟩ := p
  simp only [Equiv.coe_fn_mk]
  have hj1 := j1.2
  have hj2 := j2.2
  by_cases hc : (j1 : ℕ) + 1 = (j2 : ℕ)
  · rw [if_pos hc, if_pos (by rw [Fin.val_rev, Fin.val_rev]; omega)]
    exact abs_sub_comm _ _
  · rw [if_neg hc, if_neg (by rw [Fin.val_rev, Fin.val_rev]; omega)]

theorem bigT_mirH (g : Mat nn nn) : bigT (mirH g) = bigT g := by
  unfold bigT mirH
  refine Finset.sum_congr rfl (fun i _ => ?_)
  exact Equiv.sum_comp Fin.revPerm (fun c => ((g i c : ℝ)) ^ 2)

theorem bigT_transp (g : Mat nn nn) : bigT (transp g) = bigT g := by
  unfold bigT transp
  exact Finset.sum_comm

theorem hPairs_mirH (g : Mat nn nn) : hPairs (mirH g) = hPairs g := by
  unfold hPairs mirH
  refine Finset.sum_congr rfl (fun i _ => ?_)
  exact rowPairs_mirror nn (g i)

theorem vPairs_mirH (g : Mat nn nn) : vPairs (mirH g) = vPairs g := by
  unfold vPairs mirH
  exact Equiv.sum_comp Fin.revPerm (fun c => ∑ i : Fin nn,
    if h : (i : ℕ) + 1 < nn then
      |Real.sqrt (g i c) - Real.sqrt (g ⟨(i : ℕ) + 1, h⟩ c)| else 0)

theorem hPairs_transp (g : Mat nn nn) : hPairs (transp g) = vPairs g := rfl

theorem vPairs_transp (g : Mat nn nn) : vPairs (transp g) = hPairs g := rfl

theorem smoothness_mirH (g : Mat nn nn) :
    smoothness (mirH g) = smoothness g := by
  unfold smoothness
  rw [hPairs_mirH, vPairs_mirH]

theorem smoothness_transp (g : Mat nn nn) :
    smoothness (transp g) = smoothness g := by
  unfold smoothness
  rw [hPairs_transp, vPairs_transp, sub_right_comm]

theorem evalBoard_mirH (g : Mat nn nn) (k : ℕ) :
    evalBoard (mirH g) k = evalBoard g k := by
  unfold evalBoard
  rw [bigT_mirH, smoothness_mirH]

theorem evalBoard_transp (g : Mat nn nn) (k : ℕ) :
    evalBoard (transp g) k = evalBoard g k := by
  unfold evalBoard
  rw [bigT_transp, smoothness_transp]

theorem utilSum_fst :
    ∀ l : List Util, l.sum.1 = (l.map (fun u => u.1)).sum := by
  intro l
  induction l with
  | nil => rfl
  | cons u l ih =>
    rw [List.sum_cons, List.map_cons, List.sum_cons, ← ih]
    rfl

theorem maxLoop_fst (g : Mat nn nn) (d : ℕ) :
    ∀ (ms : List ℕ) (acc : Option ℕ × Util),
    (maxLoop g d ms acc).2.1 =
      ms.foldl (fun a mv => max a (chance (applyMove mv g) (d + 1)).1)
        acc.2.1 := by
  intro ms
  induction ms with
  | nil =>
    intro acc
    rw [maxLoop]
    rfl
  | cons mv ms ih =>
    intro acc
    rw [maxLoop, ih, List.foldl_cons]
    congr 1
    by_cases hle : acc.2.1 ≤ (chance (applyMove mv g) (d + 1)).1
    · rw [if_pos hle, max_eq_right hle]
    · rw [if_neg hle, max_eq_left (le_of_not_le hle)]

theorem foldl_max_init_le (f : ℕ → EReal) :
    ∀ (l : List ℕ) (b : EReal), b ≤ l.foldl (fun a x => max a (f x)) b := by
  intro l
  induction l with
  | nil => intro b; exact le_refl b
  | cons x l ih =>
    intro b
    rw [List.foldl_cons]
    exact le_trans (le_max_left b (f x)) (ih _)

theorem foldl_max_elem_le (f : ℕ → EReal) (x : ℕ) :
    ∀ (l : List ℕ) (b : EReal), x ∈ l →
    f x ≤ l.foldl (fun a y => max a (f y)) b := by
  intro l
  induction l with
  | nil => intro b hx; exact absurd hx (List.not_mem_nil x)
  | cons y l ih =>
    intro b hx
    rw [List.foldl_cons]
    rcases List.mem_cons.mp hx with h | h
    · subst h
      exact le_trans (le_max_right b (f x)) (foldl_max_init_le f l _)
    · exact ih _ h

theorem foldl_max_le_of (f : ℕ → EReal) (c : EReal) :
    ∀ (l : List ℕ) (b : EReal), b ≤ c → (∀ x ∈ l, f x ≤ c) →
    l.foldl (fun a x => max a (f x)) b ≤ c := by
  intro l
  induction l with
  | nil => intro b hb _; exact hb
  | cons x l ih =>
    intro b hb hall
    rw [List.foldl_cons]
    exact ih _ (max_le hb (hall x (List.mem_cons_self x l)))
      (fun y hy => hall y (List.mem_cons_of_mem _ hy))

theorem foldl_max_eq_of_dom (f1 f2 : ℕ → EReal) (l1 l2 : List ℕ) (b : EReal)
    (h12 : ∀ x ∈ l1, ∃ y ∈ l2, f1 x ≤ f2 y)
    (h21 : ∀ y ∈ l2, ∃ x ∈ l1, f2 y ≤ f1 x) :
    l1.foldl (fun a x => max a (f1 x)) b
      = l2.foldl (fun a y => max a (f2 y)) b := by
  apply le_antisymm
  · apply foldl_max_le_of
    · exact foldl_max_init_le f2 l2 b
    · intro x hx
      obtain ⟨y, hy, hle⟩ := h12 x hx
      exact le_trans hle (foldl_max_elem_le f2 y l2 b hy)
  · apply foldl_max_le_of
    · exact foldl_max_init_le f1 l1 b
    · intro y hy
      obtain ⟨x, hx, hle⟩ := h21 y hy
      exact le_trans hle (foldl_max_elem_le f1 x l1 b hx)

theorem chanceLoop_fst (g : Mat nn nn) (d : ℕ)
    (ts : List ((Fin nn × Fin nn) × ℕ × ℝ)) (acc : Util) :
    (chanceLoop g d ts acc).1 = acc.1 + (ts.map (fun t =>
      (maximize (insertTile g t.1 t.2.1) (d + 1)).2.1 * (t.2.2 : EReal))).sum := by
  rw [chanceLoop_eq_sum]
  show acc.1 + _ = acc.1 + _
  congr 1
  rw [utilSum_fst, List.map_map]
  congr 1

theorem maximize_fst_inv_base (φ : Mat nn nn → Mat nn nn)
    (heval : ∀ (g : Mat nn nn) (k : ℕ), evalBoard (φ g) k = evalBoard g k)
    (hlen : ∀ g : Mat nn nn,
      (availableCells (φ g)).length = (availableCells g).length)
    (d : ℕ) (hd : 3 ≤ d) (g : Mat nn nn) :
    (maximize (φ g) d).2.1 = (maximize g d).2.1 := by
  rw [maximize, maximize, if_pos hd, if_pos hd, hlen, heval]

theorem maximize_fst_inv_step (φ : Mat nn nn → Mat nn nn) (ψ : ℕ → ℕ)
    (hinj : ∀ a b : Mat nn nn, φ a = φ b → a = b)
    (hψlt : ∀ x, x < 4 → ψ x < 4)
    (hψψ : ∀ x, x < 4 → ψ (ψ x) = x)
    (hmove : ∀ (x : ℕ) (g : Mat nn nn),
      applyMove x (φ g) = φ (applyMove (ψ x) g))
    (d : ℕ) (hd : d < 3)
    (hC : ∀ g2 : Mat nn nn, (chance (φ g2) (d + 1)).1 = (chance g2 (d + 1)).1)
    (g : Mat nn nn) :
    (maximize (φ g) d).2.1 = (maximize g d).2.1 := by
  rw [maximize, maximize, if_neg (by omega), if_neg (by omega),
    maxLoop_fst, maxLoop_fst]
  apply foldl_max_eq_of_dom
  · intro x hx
    rw [mem_getAvailableMoves] at hx
    obtain ⟨hx4, hxne⟩ := hx
    refine ⟨ψ x, ?_, ?_⟩
    · rw [mem_getAvailableMoves]
      refine ⟨hψlt x hx4, fun hc => hxne ?_⟩
      rw [hmove, hc]
    · rw [hmove]
      exact le_of_eq (hC (applyMove (ψ x) g))
  · intro y hy
    rw [mem_getAvailableMoves] at hy
    obtain ⟨hy4, hyne⟩ := hy
    have hmy : applyMove (ψ y) (φ g) = φ (applyMove y g) := by
      have h0 := hmove (ψ y) g
      rw [hψψ y hy4] at h0
      exact h0
    refine ⟨ψ y, ?_, ?_⟩
    · rw [mem_getAvailableMoves]
      refine ⟨hψlt y hy4, fun hc => hyne ?_⟩
      rw [hmy] at hc
      exact hinj _ _ hc
    · rw [hmy]
      exact le_of_eq (hC (applyMove y g)).symm

theorem chance_fst_inv_step (φ : Mat nn nn → Mat nn nn)
    (e : (Fin nn × Fin nn) ≃ (Fin nn × Fin nn))
    (hpt : ∀ (g : Mat nn nn) (p : Fin nn × Fin nn),
      φ g p.1 p.2 = g (e p).1 (e p).2)
    (heval : ∀ (g : Mat nn nn) (k : ℕ), evalBoard (φ g) k = evalBoard g k)
    (hins : ∀ (g : Mat nn nn) (p : Fin nn × Fin nn) (v : ℕ),
      insertTile (φ g) p v = φ (insertTile g (e p) v))
    (d : ℕ)
    (hM : ∀ g2 : Mat nn nn,
      (maximize (φ g2) (d + 1)).2.1 = (maximize g2 (d + 1)).2.1)
    (g : Mat nn nn) :
    (chance (φ g) d).1 = (chance g d).1 := by
  have hlen : (availableCells (φ g)).length = (availableCells g).length :=
    availableCells_length_equiv g (φ g) e (hpt g)
  rw [chance, chance]
  by_cases hcut : (availableCells g).length ≥ nn * 2 ∧ chanceMaxDepth nn ≤ d
  · rw [if_pos (by rw [hlen]; exact hcut), if_pos hcut, hlen, heval]
  · rw [if_neg (by rw [hlen]; exact hcut), if_neg hcut]
    by_cases hz : (availableCells g).length = 0
    · rw [if_pos (by rw [hlen]; exact hz), if_pos hz]
      exact hM g
    · rw [if_neg (by rw [hlen]; exact hz), if_neg hz]
      rw [chanceLoop_fst, chanceLoop_fst]
      congr 1
      rw [flatMap_pair_map_sum (availableCells (φ g))
        (fun c => (c, (2:ℕ),
          (0.9 : ℝ) * (1 / ((availableCells (φ g)).length : ℝ))))
        (fun c => (c, (4:ℕ),
          (0.1 : ℝ) * (1 / ((availableCells (φ g)).length : ℝ))))]
      rw [flatMap_pair_map_sum (availableCells g)
        (fun c => (c, (2:ℕ),
          (0.9 : ℝ) * (1 / ((availableCells g).length : ℝ))))
        (fun c => (c, (4:ℕ),
          (0.1 : ℝ) * (1 / ((availableCells g).length : ℝ))))]
      rw [hlen]
      apply sum_cells_equiv g (φ g) e (hpt g)
      intro p hp
      simp only
      rw [hins g p 2, hins g p 4, hM, hM]

theorem mirH_pt (g : Mat nn nn) (p : Fin nn × Fin nn) :
    mirH g p.1 p.2 = g ((Equiv.refl (Fin nn)).prodCongr Fin.revPerm p).1
      ((Equiv.refl (Fin nn)).prodCongr Fin.revPerm p).2 := rfl

theorem transp_pt (g : Mat nn nn) (p : Fin nn × Fin nn) :
    transp g p.1 p.2 = g (Equiv.prodComm (Fin nn) (Fin nn) p).1
      (Equiv.prodComm (Fin nn) (Fin nn) p).2 := rfl

theorem mirH_cells_length (g : Mat nn nn) :
    (availableCells (mirH g)).length = (availableCells g).length :=
  availableCells_length_equiv g (mirH g)
    ((Equiv.refl (Fin nn)).prodCongr Fin.revPerm) (mirH_pt g)

theorem transp_cells_length (g : Mat nn nn) :
    (availableCells (transp g)).length = (availableCells g).length :=
  availableCells_length_equiv g (transp g)
    (Equiv.prodComm (Fin nn) (Fin nn)) (transp_pt g)

theorem mirH_insert (g : Mat nn nn) (p : Fin nn × Fin nn) (v : ℕ) :
    insertTile (mirH g) p v =
      mirH (insertTile g ((Equiv.refl (Fin nn)).prodCongr Fin.revPerm p) v) :=
  insertTile_mirH g p v

theorem transp_insert (g : Mat nn nn) (p : Fin nn × Fin nn) (v : ℕ) :
    insertTile (transp g) p v =
      transp (insertTile g (Equiv.prodComm (Fin nn) (Fin nn) p) v) :=
  insertTile_transp g p v

theorem swapLR_lt (x : ℕ) (hx : x < 4) : swapLR x < 4 := by
  interval_cases x <;> decide

theorem swapLR_invol (x : ℕ) (hx : x < 4) : swapLR (swapLR x) = x := by
  interval_cases x <;> decide

theorem swapUL_lt (x : ℕ) (hx : x < 4) : swapUL x < 4 := by
  interval_cases x <;> decide

theorem swapUL_invol (x : ℕ) (hx : x < 4) : swapUL (swapUL x) = x := by
  interval_cases x <;> decide

theorem chance_fst_mirH_3 (g : Mat nn nn) :
    (chance (mirH g) 3).1 = (chance g 3).1 :=
  chance_fst_inv_step mirH ((Equiv.refl (Fin nn)).prodCongr Fin.revPerm)
    mirH_pt evalBoard_mirH mirH_insert 3
    (maximize_fst_inv_base mirH evalBoard_mirH mirH_cells_length 4
      (by omega)) g

theorem maximize_fst_mirH_2 (g : Mat nn nn) :
    (maximize (mirH g) 2).2.1 = (maximize g 2).2.1 :=
  maximize_fst_inv_step mirH swapLR mirH_inj swapLR_lt swapLR_invol
    applyMove_mirH 2 (by omega) chance_fst_mirH_3 g

theorem chance_fst_mirH_1 (g : Mat nn nn) :
    (chance (mirH g) 1).1 = (chance g 1).1 :=
  chance_fst_inv_step mirH ((Equiv.refl (Fin nn)).prodCongr Fin.revPerm)
    mirH_pt evalBoard_mirH mirH_insert 1 maximize_fst_mirH_2 g

theorem chance_fst_transp_3 (g : Mat nn nn) :
    (chance (transp g) 3).1 = (chance g 3).1 :=
  chance_fst_inv_step transp (Equiv.prodComm (Fin nn) (Fin nn))
    transp_pt evalBoard_transp transp_insert 3
    (maximize_fst_inv_base transp evalBoard_transp transp_cells_length 4
      (by omega)) g

theorem maximize_fst_transp_2 (g : Mat nn nn) :
    (maximize (transp g) 2).2.1 = (maximize g 2).2.1 :=
  maximize_fst_inv_step transp swapUL transp_inj swapUL_lt swapUL_invol
    applyMove_transp 2 (by omega) chance_fst_transp_3 g

theorem chance_fst_transp_1 (g : Mat nn nn) :
    (chance (transp g) 1).1 = (chance g 1).1 :=
  chance_fst_inv_step transp (Equiv.prodComm (Fin nn) (Fin nn))
    transp_pt evalBoard_transp transp_insert 1 maximize_fst_transp_2 g

theorem maxLoop_all_eq_last (g : Mat nn nn) (d : ℕ) (c : EReal) :
    ∀ (ms : List ℕ) (acc : Option ℕ × Util),
    (∀ mv ∈ ms, (chance (applyMove mv g) (d + 1)).1 = c) →
    acc.2.1 ≤ c → ms ≠ [] →
    (maxLoop g d ms acc).1 = ms.getLast? := by
  intro ms
  induction ms with
  | nil => intro acc _ _ hne; exact absurd rfl hne
  | cons mv ms ih =>
    intro acc hall hacc _
    rw [maxLoop]
    have hu : (chance (applyMove mv g) (d + 1)).1 = c :=
      hall mv (List.mem_cons_self mv ms)
    rw [if_pos (by rw [hu]; exact hacc)]
    cases ms with
    | nil =>
      rw [maxLoop]
      rfl
    | cons mv2 ms2 =>
      rw [ih (some mv, chance (applyMove mv g) (d + 1))
        (fun m2 hm2 => hall m2 (List.mem_cons_of_mem _ hm2))
        (by rw [hu]) (by simp), List.getLast?_cons_cons]

/-- C5 counterexample: on the fully symmetric board `[[4,4],[4,4]]` all four
moves are legal and the recursive chance utilities of moves Up (0) and
Right (3) have equal first components (the children are reflections of each
other), yet `maximize` returns move 3 — the last encountered — not the
first, because the code replaces the running best on `>=`. -/
theorem expectimax_tie_returns_last_not_first :
    0 ∈ getAvailableMoves g44 ∧ 3 ∈ getAvailableMoves g44 ∧
      (chance (applyMove 0 g44) 1).1 = (chance (applyMove 3 g44) 1).1 ∧
      (maximize g44 0).1 = some 3 ∧ (maximize g44 0).1 ≠ some 0 := by
  have hav : getAvailableMoves g44 = [0, 1, 2, 3] := by decide
  have h2 : applyMove 2 g44 = transp (applyMove 0 g44) := by decide
  have h3 : applyMove 3 g44 = mirH (applyMove 2 g44) := by decide
  have h1 : applyMove 1 g44 = transp (applyMove 3 g44) := by decide
  have e2 : (chance (applyMove 2 g44) 1).1 = (chance (applyMove 0 g44) 1).1 := by
    rw [h2, chance_fst_transp_1]
  have e3 : (chance (applyMove 3 g44) 1).1 = (chance (applyMove 0 g44) 1).1 := by
    rw [h3, chance_fst_mirH_1, e2]
  have e1 : (chance (applyMove 1 g44) 1).1 = (chance (applyMove 0 g44) 1).1 := by
    rw [h1, chance_fst_transp_1, e3]
  have hall : ∀ mv ∈ ([0, 1, 2, 3] : List ℕ),
      (chance (applyMove mv g44) (0 + 1)).1 =
        (chance (applyMove 0 g44) 1).1 := by
    intro mv hmv
    rcases List.mem_cons.mp hmv with h | hmv
    · subst h; rfl
    rcases List.mem_cons.mp hmv with h | hmv
    · subst h; exact e1
    rcases List.mem_cons.mp hmv with h | hmv
    · subst h; exact e2
    rcases List.mem_cons.mp hmv with h | hmv
    · subst h; exact e3
    · exact absurd hmv (List.not_mem_nil mv)
  have hmax : (maximize g44 0).1 = some 3 := by
    rw [maximize, if_neg (by omega), hav]
    rw [maxLoop_all_eq_last g44 0 ((chance (applyMove 0 g44) 1).1)
      [0, 1, 2, 3] (none, botUtil) hall bot_le (by simp)]
    rfl
  refine ⟨by rw [hav]; decide, by rw [hav]; decide, e3.symm, hmax, ?_⟩
  rw [hmax]
  simp

/-- C5 (amended): ties in `maximize` favour the LAST move encountered in
the left-to-right enumeration order, not the first — the code replaces the
running best whenever `utility[0] >= max_utility[0]`.  In particular, when
every legal move's chance utility has the same first component and at least
one move is legal, the move returned is the last legal move. -/
theorem maximize_tie_returns_last (g : Mat nn nn) (d : ℕ) (hd : d < 3)
    (c : EReal)
    (hall : ∀ mv ∈ getAvailableMoves g,
      (chance (applyMove mv g) (d + 1)).1 = c)
    (hne : getAvailableMoves g ≠ []) :
    (maximize g d).1 = (getAvailableMoves g).getLast? := by
  rw [maximize, if_neg (by omega)]
  exact maxLoop_all_eq_last g d c (getAvailableMoves g) (none, botUtil)
    hall bot_le hne

/-- Witness for the amended C5 theorem at the concrete symmetric board
`[[4,4],[4,4]]`: every move's chance utility ties, and `maximize` returns
the last legal move. -/
theorem maximize_tie_returns_last_witness :
    (0 : ℕ) < 3 ∧
      (∀ mv ∈ getAvailableMoves g44,
        (chance (applyMove mv g44) (0 + 1)).1 =
          (chance (applyMove 0 g44) 1).1) ∧
      getAvailableMoves g44 ≠ [] ∧
      (maximize g44 0).1 = (getAvailableMoves g44).getLast? := by
  have hav : getAvailableMoves g44 = [0, 1, 2, 3] := by decide
  have h2 : applyMove 2 g44 = transp (applyMove 0 g44) := by decide
  have h3 : applyMove 3 g44 = mirH (applyMove 2 g44) := by decide
  have h1 : applyMove 1 g44 = transp (applyMove 3 g44) := by decide
  have e2 : (chance (applyMove 2 g44) 1).1 = (chance (applyMove 0 g44) 1).1 := by
    rw [h2, chance_fst_transp_1]
  have e3 : (chance (applyMove 3 g44) 1).1 = (chance (applyMove 0 g44) 1).1 := by
    rw [h3, chance_fst_mirH_1, e2]
  have e1 : (chance (applyMove 1 g44) 1).1 = (chance (applyMove 0 g44) 1).1 := by
    rw [h1, chance_fst_transp_1, e3]
  have hall : ∀ mv ∈ getAvailableMoves g44,
      (chance (applyMove mv g44) (0 + 1)).1 =
        (chance (applyMove 0 g44) 1).1 := by
    rw [hav]
    intro mv hmv
    rcases List.mem_cons.mp hmv with h | hmv
    · subst h; rfl
    rcases List.mem_cons.mp hmv with h | hmv
    · subst h; exact e1
    rcases List.mem_cons.mp hmv with h | hmv
    · subst h; exact e2
    rcases List.mem_cons.mp hmv with h | hmv
    · subst h; exact e3
    · exact absurd hmv (List.not_mem_nil mv)
  exact ⟨by decide, hall, by rw [hav]; simp,
    maximize_tie_returns_last g44 0 (by decide)
      ((chance (applyMove 0 g44) 1).1) hall (by rw [hav]; simp)⟩
